import Mathlib

/-!
A verification development for the round-robin executor subsystem of the
`lireza/lib` repository (package `concurrent` and `concurrent/executor`).

Two complementary embeddings are used:

* a pure functional model of `executor.go`'s data (the `container/ring`
  cursor, the per-worker channel map, construction validation) on which the
  sequential dispatch facts are proved, and
* a small-step transition system modelling the concurrent behaviour of the
  worker goroutines, the bounded queues, the unbuffered stop channels and
  the nondeterministic `select`, on which the temporal claims are proved.
-/

namespace Lib

/-- An opaque unit of work handed to the pool: stands for a
`concurrent.Runner` value.  Distinct tokens stand for distinct runners. -/
abbrev Runner := Nat

/-- One slot of the `container/ring` ring.  Go stores `interface{}` values
there; `none` models Go's `nil` (the value of a freshly created ring slot),
`some i` models a stored `int`. -/
abbrev RingVal := Option Int

/-- `ids.Next()`: the ring viewed as a list whose head is the current
element; moving to the next element rotates the view left by one. -/
def ringNext : List RingVal → List RingVal
  | [] => []
  | x :: xs => xs ++ [x]

/-- `ids.Value = v`: assignment to the current ring slot. -/
def ringSet (r : List RingVal) (v : Int) : List RingVal :=
  match r with
  | [] => []
  | _ :: xs => some v :: xs

/-- The identifier fill loop of `NewRoundRobinExecutor`:
`for i := 1; i <= nThreads; i++ { ids.Value = i; ids = ids.Next() }`.
The `Nat` argument counts the remaining iterations. -/
def fillIds : List RingVal → Int → Nat → List RingVal
  | r, _, 0 => r
  | r, i, k + 1 => fillIds (ringNext (ringSet r i)) (i + 1) k

/-- The list `[some i, some (i+1), ..., some (i+k-1)]`: the ring contents
produced by the fill loop, viewed from the current element. -/
def intSome : Int → Nat → List RingVal
  | _, 0 => []
  | i, k + 1 => some i :: intSome (i + 1) k

/-- The channel-map build loop: `channels[i] = make(chan Runner, Q)` for
`i = 1 .. nThreads`, modelled as an association list from worker identifier
to queue buffer (each queue starts empty). -/
def mkChannels : Int → Nat → List (Int × List Runner)
  | _, 0 => []
  | i, k + 1 => (i, []) :: mkChannels (i + 1) k

/-- Go map read `channels[id]`. -/
def chanLookup (id : Int) : List (Int × List Runner) → Option (List Runner)
  | [] => none
  | (j, q) :: rest => if j = id then some q else chanLookup id rest

/-- Go map write `channels[id] = q`. -/
def chanUpdate (id : Int) (q : List Runner) :
    List (Int × List Runner) → List (Int × List Runner)
  | [] => []
  | (j, q0) :: rest =>
    if j = id then (j, q) :: rest else (j, q0) :: chanUpdate id q rest

/-- The `RoundRobinExecutor` struct of `executor.go`.  `ids` is the ring
viewed from the current cursor position, `channels` the worker-id-indexed
map of queue buffers, `qcap` the capacity every worker queue was created
with, and `wg` the termination-tracker count set by `wg.Add(nThreads)`. -/
structure RoundRobinExecutor where
  ids : List RingVal
  channels : List (Int × List Runner)
  qcap : Nat
  wg : Nat
deriving DecidableEq

/-- `NewRoundRobinExecutor(nThreads, threadQueueSize)`.  Rejects
non-positive arguments with the source's error; otherwise builds the ring
of identifiers `1..nThreads` via the fill loop, the channel map with one
empty queue per worker, and registers `nThreads` workers with the
termination tracker (one goroutine is started per channel-map entry). -/
def NewRoundRobinExecutor (nThreads threadQueueSize : Int) :
    Except String RoundRobinExecutor :=
  if nThreads < 1 ∨ threadQueueSize < 1 then
    .error "executor: invalid argument"
  else
    .ok { ids := fillIds (List.replicate nThreads.toNat none) 1 nThreads.toNat,
          channels := mkChannels 1 nThreads.toNat,
          qcap := threadQueueSize.toNat,
          wg := nThreads.toNat }

/-- The number of started workers: one worker goroutine is started per
entry of the channel map in the construction loop. -/
def RoundRobinExecutor.nWorkers (e : RoundRobinExecutor) : Nat :=
  e.channels.length

/-- `e.ids.Value.(int)`: the current cursor value with its type assertion.
`none` models an assertion panic (a `nil` or non-`int` slot). -/
def RoundRobinExecutor.target (e : RoundRobinExecutor) : Option Int :=
  match e.ids.head? with
  | some (some id) => some id
  | _ => none

/-- `Execute(runner)` in the sequential (no blocking) setting: read the
cursor's worker identifier, append the runner to that worker's queue
buffer, advance the cursor.  `none` models abnormal behaviour: a cursor
type-assertion panic or a send on a missing (`nil`) channel. -/
def RoundRobinExecutor.Execute (e : RoundRobinExecutor) (runner : Runner) :
    Option RoundRobinExecutor :=
  match e.target with
  | some id =>
    match chanLookup id e.channels with
    | some q =>
      some { e with channels := chanUpdate id (q ++ [runner]) e.channels,
                    ids := ringNext e.ids }
    | none => none
  | none => none

/-- Submit a list of runners one `Execute` call at a time, recording the
worker identifier each runner was dispatched to. -/
def execTrace : RoundRobinExecutor → List Runner →
    Option (List Int × RoundRobinExecutor)
  | e, [] => some ([], e)
  | e, r :: rs =>
    match e.target, e.Execute r with
    | some id, some e2 => (execTrace e2 rs).map (fun p => (id :: p.1, p.2))
    | _, _ => none

/-!  The runnable variants of the `concurrent` package. -/

/-- A Go channel of element type `V`: its FIFO buffer of currently queued
values and the capacity it was created with (`make(chan V, cap)`). -/
structure Chan (V : Type) where
  buf : List V
  cap : Nat
deriving DecidableEq

/-- The non-blocking case of a channel send `c <- v`: `some` of the updated
channel when buffer space is available (the send completes immediately),
`none` when the send would block the sender. -/
def Chan.send {V : Type} (c : Chan V) (v : V) : Option (Chan V) :=
  if c.buf.length < c.cap then some { c with buf := c.buf ++ [v] } else none

/-- Channel receive `<-c`: the oldest buffered value, if any. -/
def Chan.recv {V : Type} (c : Chan V) : Option (V × Chan V) :=
  match c.buf with
  | [] => none
  | v :: rest => some (v, { c with buf := rest })

/-- The `Task` struct of the `concurrent` package: a wrapped function, its
stored opaque argument and its response channel.  The Go field `do` (a
Lean keyword) is called `doF`; the wrapped function is modelled by its
effect on the response channel. -/
structure Task (A V : Type) where
  doF : A → Chan V → Chan V
  arg : A
  r : Chan V

/-- `(t *Task) Run()`: `t.do(t.arg, t.r)` — invoke the wrapped function
with the stored argument and the response channel.  It returns nothing and
never fails itself; its only observable effect is the function's effect on
the response channel. -/
def Task.Run {A V : Type} (t : Task A V) : Task A V :=
  { t with r := t.doF t.arg t.r }

/-- `NewTask(do, arg)`: builds the task with a fresh response channel of
capacity 2 (`r := make(chan interface\x7b\x7d, 2)`) and returns the task
together with the receive handle to that same channel. -/
def NewTask {A V : Type} (doF : A → Chan V → Chan V) (arg : A) :
    Task A V × Chan V :=
  let r : Chan V := { buf := [], cap := 2 }
  ({ doF := doF, arg := arg, r := r }, r)

/-- The `Callable` struct of the `concurrent` package: a wrapped function
and its error channel. -/
structure Callable (E : Type) where
  doF : Chan E → Chan E
  e : Chan E

/-- `(c *Callable) Run()`: `c.do(c.e)`. -/
def Callable.Run {E : Type} (c : Callable E) : Callable E :=
  { c with e := c.doF c.e }

/-- `NewCallable(do)`: builds the callable with a fresh error channel of
capacity 2 (`e := make(chan error, 2)`) and returns the callable together
with the receive handle to that same channel. -/
def NewCallable {E : Type} (doF : Chan E → Chan E) : Callable E × Chan E :=
  let e : Chan E := { buf := [], cap := 2 }
  ({ doF := doF, e := e }, e)

/-- The runners among `rs` that round-robin dispatch sends to worker `j`,
when the cursor has already advanced `k` positions since construction. -/
def assignedTo (n k : Nat) (j : Int) : List Runner → List Runner
  | [] => []
  | r :: rs =>
    if (1 + ((k % n : Nat) : Int)) = j then r :: assignedTo n (k + 1) j rs
    else assignedTo n (k + 1) j rs

/-- The identifiers `[i, i+1, ..., i+k-1]` keyed by the channel map. -/
def intKeys : Int → Nat → List Int
  | _, 0 => []
  | i, k + 1 => i :: intKeys (i + 1) k

/-!
Small-step concurrent semantics of the executor.

A state holds the worker goroutines' statuses, the per-worker queue
buffers, the pending submissions of the (mutex-serialized) callers, the
ring cursor, the progress of a `Shutdown` call, the WaitGroup counter, and
a log of execution events.  The `consumed`, `enq`, `dones` and `sigs`
fields are history (ghost) variables recording, per worker, what has been
submitted, enqueued, completed and how many stop signals were received;
they are written exactly when the corresponding code event happens and are
read by no transition guard.

The nondeterministic `select` of the worker loop is modelled by both the
`dequeue` and the `rendezvous` transitions being enabled for a `waiting`
worker; the unbuffered stop channels are modelled by `rendezvous` being a
single atomic hand-off that simultaneously completes `Shutdown`'s send and
the worker's receive.
-/

/-- Execution events observable in a run: worker `i` starts executing
runnable `r` (`runner.Run()` is invoked), worker `i` finishes executing
runnable `r` (`runner.Run()` returns). -/
inductive Event where
  | beg (i : Nat) (r : Runner)
  | fin (i : Nat) (r : Runner)
deriving DecidableEq

/-- The worker identifier an event belongs to. -/
def Event.wid : Event → Nat
  | .beg i _ => i
  | .fin i _ => i

/-- Status of one worker goroutine. -/
inductive WStatus where
  | waiting
  | executing (r : Runner)
  | stopping
  | exited
deriving DecidableEq

/-- Progress of a `Shutdown()` call: not yet called; in the broadcast loop
with the listed stop signals still undelivered; blocked in `wg.Wait()`;
returned. -/
inductive ShutSt where
  | sIdle
  | sBroadcast (pending : List Nat)
  | sWaitWG
  | sReturned
deriving DecidableEq

/-- Pool parameters: worker count `N` and per-worker queue capacity `Q`. -/
structure Sys where
  N : Nat
  Q : Nat

/-- A global state of the concurrent system. -/
structure St where
  workers : Nat → WStatus
  queues : Nat → List Runner
  subs : List Runner
  cursor : Nat
  shut : ShutSt
  wg : Nat
  log : List Event
  consumed : List Runner
  enq : Nat → List Runner
  dones : Nat → List Runner
  sigs : Nat → Nat

/-- Pointwise function update. -/
def upd {B : Type} (f : Nat → B) (i : Nat) (b : B) : Nat → B :=
  fun j => if j = i then b else f j

/-- The worker identifiers `1 .. n`. -/
def workerIds (n : Nat) : List Nat := List.range' 1 n

/-- Ring-cursor advance: to the next identifier, wrapping from `n` to 1. -/
def nextId (n c : Nat) : Nat := if c = n then 1 else c + 1

/-- The pool mutex is free: `Shutdown` holds it from entry to return, so an
`Execute` call can run only before `Shutdown` starts or after it has
returned. -/
def lockFree (st : ShutSt) : Prop := st = .sIdle ∨ st = .sReturned

/-- Effect of a completed `Execute` call: append the runner to the queue of
the worker under the cursor and advance the cursor. -/
def doSubmit (sys : Sys) (s : St) (r : Runner) (rest : List Runner) : St :=
  { s with subs := rest,
           queues := upd s.queues s.cursor (s.queues s.cursor ++ [r]),
           cursor := nextId sys.N s.cursor,
           consumed := s.consumed ++ [r],
           enq := upd s.enq s.cursor (s.enq s.cursor ++ [r]) }

/-- Effect of worker `i`'s select taking the queue branch: dequeue the
head runnable and invoke `runner.Run()`. -/
def doDequeue (s : St) (i : Nat) (r : Runner) (rest : List Runner) : St :=
  { s with workers := upd s.workers i (.executing r),
           queues := upd s.queues i rest,
           log := s.log ++ [.beg i r] }

/-- Effect of `runner.Run()` returning on worker `i`. -/
def doFinish (s : St) (i : Nat) (r : Runner) : St :=
  { s with workers := upd s.workers i .waiting,
           log := s.log ++ [.fin i r],
           dones := upd s.dones i (s.dones i ++ [r]) }

/-- Effect of `Shutdown` being entered: the lock is taken and the send
loop starts, with the stop signals still to deliver listed in the map's
(arbitrary) iteration order. -/
def doShutStart (s : St) (perm : List Nat) : St :=
  { s with shut := .sBroadcast perm }

/-- Effect of the atomic unbuffered hand-off of one stop signal: worker
`i`'s select takes the stop branch exactly when `Shutdown`'s send on that
worker's channel completes. -/
def doRendezvous (s : St) (i : Nat) (rest : List Nat) : St :=
  { s with workers := upd s.workers i .stopping,
           shut := .sBroadcast rest,
           sigs := upd s.sigs i (s.sigs i + 1) }

/-- Effect of the send loop finishing: `Shutdown` moves to `wg.Wait()`. -/
def doBroadcastDone (s : St) : St :=
  { s with shut := .sWaitWG }

/-- Effect of `wg.Wait()` unblocking: `Shutdown` returns, releasing the
lock. -/
def doReturn (s : St) : St :=
  { s with shut := .sReturned }

/-- Effect of a stopping worker running `wg.Done()` and returning out of
its loop. -/
def doExit (s : St) (i : Nat) : St :=
  { s with workers := upd s.workers i .exited,
           wg := s.wg - 1 }

/-- One step of the concurrent system. -/
inductive Step (sys : Sys) : St → St → Prop where
  | submit (s : St) (r : Runner) (rest : List Runner) :
      lockFree s.shut → s.subs = r :: rest →
      (s.queues s.cursor).length < sys.Q →
      Step sys s (doSubmit sys s r rest)
  | dequeue (s : St) (i : Nat) (r : Runner) (rest : List Runner) :
      1 ≤ i → i ≤ sys.N → s.workers i = .waiting → s.queues i = r :: rest →
      Step sys s (doDequeue s i r rest)
  | finish (s : St) (i : Nat) (r : Runner) :
      s.workers i = .executing r → Step sys s (doFinish s i r)
  | shutStart (s : St) (perm : List Nat) :
      s.shut = .sIdle → perm.Perm (workerIds sys.N) →
      Step sys s (doShutStart s perm)
  | rendezvous (s : St) (i : Nat) (rest : List Nat) :
      s.shut = .sBroadcast (i :: rest) → s.workers i = .waiting →
      Step sys s (doRendezvous s i rest)
  | broadcastDone (s : St) :
      s.shut = .sBroadcast [] → Step sys s (doBroadcastDone s)
  | wgReturn (s : St) :
      s.shut = .sWaitWG → s.wg = 0 → Step sys s (doReturn s)
  | wExit (s : St) (i : Nat) :
      s.workers i = .stopping → Step sys s (doExit s i)

/-- The state right after a successful `NewRoundRobinExecutor`: all
workers started and waiting, all queues empty, cursor at worker 1, the
WaitGroup counter at `N`, and the callers still to submit `subs0`. -/
def init (sys : Sys) (subs0 : List Runner) : St :=
  { workers := fun _ => .waiting,
    queues := fun _ => [],
    subs := subs0,
    cursor := 1,
    shut := .sIdle,
    wg := sys.N,
    log := [],
    consumed := [],
    enq := fun _ => [],
    dones := fun _ => [],
    sigs := fun _ => 0 }

/-- Finitely many steps. -/
def Steps (sys : Sys) : St → St → Prop := Relation.ReflTransGen (Step sys)

/-- Reachability from the freshly constructed pool. -/
def Reach (sys : Sys) (subs0 : List Runner) (s : St) : Prop :=
  Steps sys (init sys subs0) s

/-- Membership test for the per-worker projection of the event log. -/
def evFor (i : Nat) (e : Event) : Bool := e.wid == i

/-- The sub-log of events of worker `i`. -/
def wlog (i : Nat) (log : List Event) : List Event := log.filter (evFor i)

/-- The event-log shape of a worker that fully executed the runnables
`ds` in order: begin/finish pairs, in order. -/
def altRep (i : Nat) : List Runner → List Event
  | [] => []
  | r :: rs => .beg i r :: .fin i r :: altRep i rs

/-- The trailing begin event of a worker currently executing a runnable. -/
def begTail (i : Nat) (s : St) : List Event :=
  match s.workers i with
  | .executing r => [.beg i r]
  | _ => []

/-- The runnable a worker is currently executing, as a list. -/
def execList (i : Nat) (s : St) : List Runner :=
  match s.workers i with
  | .executing r => [r]
  | _ => []

/-- Number of workers that have not yet reported termination
(`wg.Done()`). -/
def countActive (n : Nat) (s : St) : Nat :=
  ((workerIds n).filter (fun i => decide (s.workers i ≠ .exited))).length

/-- Per-worker phase classification tied to the progress of `Shutdown`:
before a worker's stop signal is delivered it is in its select/run cycle
and has received no signal; afterwards it has received exactly one signal
and is stopping or has exited; once `Shutdown` returned every worker has
exited. -/
def PhaseOK (s : St) (i : Nat) : Prop :=
  match s.shut with
  | .sIdle =>
      s.sigs i = 0 ∧ (s.workers i = .waiting ∨ ∃ r, s.workers i = .executing r)
  | .sBroadcast pending =>
      if i ∈ pending then
        s.sigs i = 0 ∧ (s.workers i = .waiting ∨ ∃ r, s.workers i = .executing r)
      else
        s.sigs i = 1 ∧ (s.workers i = .stopping ∨ s.workers i = .exited)
  | .sWaitWG =>
      s.sigs i = 1 ∧ (s.workers i = .stopping ∨ s.workers i = .exited)
  | .sReturned => s.sigs i = 1 ∧ s.workers i = .exited

/-- The inductive invariant of the concurrent system. -/
structure Inv (sys : Sys) (subs0 : List Runner) (s : St) : Prop where
  wlog_eq : ∀ i, wlog i s.log = altRep i (s.dones i) ++ begTail i s
  enq_eq : ∀ i, s.enq i = s.dones i ++ execList i s ++ s.queues i
  consumed_eq : s.consumed ++ s.subs = subs0
  enq_sub : ∀ i, (s.enq i).Sublist s.consumed
  wg_eq : s.wg = countActive sys.N s
  phase : ∀ i, 1 ≤ i → i ≤ sys.N → PhaseOK s i
  bcast : ∀ pending, s.shut = .sBroadcast pending →
      pending.Nodup ∧ ∀ j ∈ pending, 1 ≤ j ∧ j ≤ sys.N
  out_range : ∀ i, ¬(1 ≤ i ∧ i ≤ sys.N) →
      s.workers i = .waiting ∧ s.queues i = [] ∧ s.enq i = [] ∧
      s.dones i = [] ∧ s.sigs i = 0
  cursor_range : 1 ≤ s.cursor ∧ s.cursor ≤ sys.N

/-- One log event occurring strictly before another. -/
def precedes (l : List Event) (e1 e2 : Event) : Prop :=
  ∃ n m : Nat, n < m ∧ l[n]? = some e1 ∧ l[m]? = some e2

/-!
A concrete demonstration system: one worker, queue capacity 2, two
runnables `0` and `1` to submit.  Trace A submits runnable 0, then shuts
the pool down with the worker's select taking the stop branch while the
runnable is still queued, and finally submits runnable 1 after `Shutdown`
has returned.  Trace B instead lets the worker execute both runnables.
-/

def sysA : Sys := { N := 1, Q := 2 }

def sA0 : St := init sysA [0, 1]

def sA1 : St := doSubmit sysA sA0 0 [1]

def sA2 : St := doShutStart sA1 [1]

def sA3 : St := doRendezvous sA2 1 []

def sA4 : St := doExit sA3 1

def sA5 : St := doBroadcastDone sA4

def sA6 : St := doReturn sA5

def sA7 : St := doSubmit sysA sA6 1 []

def sB2 : St := doSubmit sysA sA1 1 []

def sB3 : St := doDequeue sB2 1 0 [1]

def sB4 : St := doFinish sB3 1 0

def sB5 : St := doDequeue sB4 1 1 []

theorem intSome_length (i : Int) (k : Nat) : (intSome i k).length = k := by
  induction k generalizing i with
  | zero => rfl
  | succ k ih => simp [intSome, ih]

theorem intSome_getElem? (i : Int) (k j : Nat) :
    (intSome i k)[j]? = if j < k then some (some (i + j)) else none := by
  induction k generalizing i j with
  | zero => simp [intSome]
  | succ k ih =>
    cases j with
    | zero => simp [intSome]
    | succ j =>
      have harith : i + 1 + (j : Int) = i + ((j : Nat) + 1 : Nat) := by
        push_cast; ring
      simp [intSome, ih, Nat.succ_lt_succ_iff, harith]

theorem mem_intSome (v : RingVal) (i : Int) (k : Nat) :
    v ∈ intSome i k ↔ ∃ j : Nat, j < k ∧ v = some (i + j) := by
  induction k generalizing i with
  | zero => simp [intSome]
  | succ k ih =>
    simp only [intSome, List.mem_cons, ih]
    constructor
    · rintro (rfl | ⟨j, hj, rfl⟩)
      · exact ⟨0, by omega, by simp⟩
      · refine ⟨j + 1, by omega, ?_⟩
        have : i + 1 + (j : Int) = i + ((j + 1 : Nat) : Int) := by push_cast; ring
        rw [this]
    · rintro ⟨j, hj, rfl⟩
      cases j with
      | zero => left; simp
      | succ j =>
        right
        refine ⟨j, by omega, ?_⟩
        have : i + 1 + (j : Int) = i + ((j + 1 : Nat) : Int) := by push_cast; ring
        rw [this]

theorem fillIds_gen (k : Nat) : ∀ (l : List RingVal) (i : Int),
    fillIds (List.replicate k none ++ l) i k = l ++ intSome i k := by
  induction k with
  | zero => intro l i; simp [fillIds, intSome]
  | succ k ih =>
    intro l i
    have h1 : List.replicate (k + 1) (none : RingVal) ++ l
        = none :: (List.replicate k none ++ l) := by
      simp [List.replicate_succ]
    have h2 : (List.replicate k (none : RingVal) ++ l) ++ [some i]
        = List.replicate k none ++ (l ++ [some i]) := by
      simp
    rw [h1]
    show fillIds (ringNext (ringSet (none :: (List.replicate k none ++ l)) i))
        (i + 1) k = l ++ intSome i (k + 1)
    rw [show ringNext (ringSet (none :: (List.replicate k none ++ l)) i)
          = (List.replicate k none ++ l) ++ [some i] from rfl, h2,
        ih (l ++ [some i]) (i + 1)]
    simp [intSome]

theorem fillIds_replicate (k : Nat) :
    fillIds (List.replicate k none) 1 k = intSome 1 k := by
  have h := fillIds_gen k [] 1
  simpa using h

theorem mkChannels_length (i : Int) (k : Nat) : (mkChannels i k).length = k := by
  induction k generalizing i with
  | zero => rfl
  | succ k ih => simp [mkChannels, ih]

theorem mkChannels_keys (k : Nat) : ∀ i : Int,
    (mkChannels i k).map Prod.fst = intKeys i k := by
  induction k with
  | zero => intro i; rfl
  | succ k ih => intro i; simp [mkChannels, intKeys, ih]

theorem mem_intKeys (id : Int) (k : Nat) : ∀ i : Int,
    id ∈ intKeys i k ↔ i ≤ id ∧ id < i + k := by
  induction k with
  | zero =>
    intro i
    simp only [intKeys, List.not_mem_nil, false_iff, not_and]
    push_cast
    omega
  | succ k ih =>
    intro i
    simp only [intKeys, List.mem_cons, ih (i + 1)]
    push_cast
    omega

theorem mkChannels_lookup (k : Nat) : ∀ (i id : Int), i ≤ id → id < i + k →
    chanLookup id (mkChannels i k) = some [] := by
  induction k with
  | zero =>
    intro i id h1 h2
    simp only [Nat.cast_zero, Int.add_zero] at h2
    omega
  | succ k ih =>
    intro i id h1 h2
    by_cases h : i = id
    · simp [mkChannels, chanLookup, h]
    · have h3 : i + 1 ≤ id := by omega
      have h4 : id < i + 1 + k := by push_cast at h2 ⊢; omega
      simp [mkChannels, chanLookup, h, ih (i + 1) id h3 h4]

theorem chanUpdate_keys (id : Int) (q : List Runner) (l : List (Int × List Runner)) :
    (chanUpdate id q l).map Prod.fst = l.map Prod.fst := by
  induction l with
  | nil => rfl
  | cons x rest ih =>
    obtain ⟨j, q0⟩ := x
    by_cases h : j = id <;> simp [chanUpdate, h, ih]

theorem chanLookup_update_self (id : Int) (q : List Runner)
    (l : List (Int × List Runner)) (q0 : List Runner)
    (h : chanLookup id l = some q0) :
    chanLookup id (chanUpdate id q l) = some q := by
  induction l with
  | nil => simp [chanLookup] at h
  | cons x rest ih =>
    obtain ⟨j, q1⟩ := x
    by_cases hj : j = id
    · simp [chanUpdate, chanLookup, hj]
    · simp only [chanLookup, hj, if_false] at h
      simp [chanUpdate, chanLookup, hj, ih h]

theorem chanLookup_update_ne (id j : Int) (q : List Runner)
    (l : List (Int × List Runner)) (h : id ≠ j) :
    chanLookup j (chanUpdate id q l) = chanLookup j l := by
  induction l with
  | nil => rfl
  | cons x rest ih =>
    obtain ⟨j0, q0⟩ := x
    by_cases hj : j0 = id
    · subst hj
      simp [chanUpdate, chanLookup, fun hc : j0 = j => h hc]
    · simp only [chanUpdate, hj, if_false]
      by_cases hjj : j0 = j <;> simp [chanLookup, hjj, ih]

theorem chanLookup_isSome_of_mem (id : Int) (l : List (Int × List Runner))
    (h : id ∈ l.map Prod.fst) : (chanLookup id l).isSome := by
  induction l with
  | nil => simp at h
  | cons x rest ih =>
    obtain ⟨j, q⟩ := x
    by_cases hj : j = id
    · simp [chanLookup, hj]
    · have h2 : id ∈ rest.map Prod.fst := by
        simp only [List.map_cons, List.mem_cons] at h
        rcases h with h | h
        · exact absurd h.symm hj
        · exact h
      simp [chanLookup, hj, ih h2]

theorem ringNext_eq_rotate (l : List RingVal) : ringNext l = l.rotate 1 := by
  cases l with
  | nil => rfl
  | cons x xs => rw [ringNext, List.rotate_cons_succ, List.rotate_zero]

/-- State invariant of the pure executor model: the ring is the identifier
cycle `1..n` rotated `k` positions, and the channel map keys are exactly
`1..n`. -/
def PoolInv (n k : Nat) (e : RoundRobinExecutor) : Prop :=
  e.ids = (intSome 1 n).rotate k ∧ e.channels.map Prod.fst = intKeys 1 n

theorem new_poolInv (nThreads threadQueueSize : Int)
    (hN : 1 ≤ nThreads) (hQ : 1 ≤ threadQueueSize) :
    ∃ p, NewRoundRobinExecutor nThreads threadQueueSize = .ok p ∧
      PoolInv nThreads.toNat 0 p ∧
      p.nWorkers = nThreads.toNat ∧ p.wg = nThreads.toNat ∧
      p.qcap = threadQueueSize.toNat ∧
      (∀ j : Int, 1 ≤ j → j ≤ nThreads → chanLookup j p.channels = some []) := by
  have hcond : ¬(nThreads < 1 ∨ threadQueueSize < 1) := by omega
  refine ⟨{ ids := fillIds (List.replicate nThreads.toNat none) 1 nThreads.toNat,
            channels := mkChannels 1 nThreads.toNat,
            qcap := threadQueueSize.toNat,
            wg := nThreads.toNat }, ?_, ⟨?_, ?_⟩, ?_, rfl, rfl, ?_⟩
  · simp only [NewRoundRobinExecutor, if_neg hcond]
  · show fillIds (List.replicate nThreads.toNat none) 1 nThreads.toNat
        = (intSome 1 nThreads.toNat).rotate 0
    rw [List.rotate_zero, fillIds_replicate]
  · show (mkChannels 1 nThreads.toNat).map Prod.fst = intKeys 1 nThreads.toNat
    exact mkChannels_keys _ _
  · show (mkChannels 1 nThreads.toNat).length = nThreads.toNat
    exact mkChannels_length _ _
  · intro j h1 h2
    show chanLookup j (mkChannels 1 nThreads.toNat) = some []
    refine mkChannels_lookup _ _ _ h1 ?_
    have : ((nThreads.toNat : Nat) : Int) = nThreads := by omega
    omega

theorem target_of_inv (n k : Nat) (hn : 1 ≤ n) (e : RoundRobinExecutor)
    (h : PoolInv n k e) : e.target = some (1 + ((k % n : Nat) : Int)) := by
  have hlen : (intSome 1 n).length = n := intSome_length _ _
  have hk : k % n < n := Nat.mod_lt _ hn
  have hrot : (intSome 1 n).rotate k = (intSome 1 n).rotate (k % n) := by
    rw [← List.rotate_mod, hlen]
  have hhead : ((intSome 1 n).rotate (k % n)).head? = (intSome 1 n)[k % n]? :=
    List.head?_rotate (by omega)
  have hget : (intSome 1 n)[k % n]? = some (some (1 + ((k % n : Nat) : Int))) := by
    rw [intSome_getElem?]
    simp [hk]
  show RoundRobinExecutor.target e = _
  rw [RoundRobinExecutor.target, h.1, hrot, hhead, hget]

theorem Execute_step (n k : Nat) (hn : 1 ≤ n) (e : RoundRobinExecutor)
    (r : Runner) (h : PoolInv n k e) :
    ∃ e2, e.Execute r = some e2 ∧ PoolInv n (k + 1) e2 ∧
      e.target = some (1 + ((k % n : Nat) : Int)) ∧
      (∀ j : Int, chanLookup j e2.channels =
        if (1 + ((k % n : Nat) : Int)) = j then
          (chanLookup j e.channels).map (fun q => q ++ [r])
        else chanLookup j e.channels) := by
  have htgt := target_of_inv n k hn e h
  have hkmem : (1 + ((k % n : Nat) : Int)) ∈ e.channels.map Prod.fst := by
    rw [h.2, mem_intKeys]
    have hk : k % n < n := Nat.mod_lt _ hn
    omega
  obtain ⟨q, hq⟩ := Option.isSome_iff_exists.mp (chanLookup_isSome_of_mem _ _ hkmem)
  refine ⟨RoundRobinExecutor.mk (ringNext e.ids)
      (chanUpdate (1 + ((k % n : Nat) : Int)) (q ++ [r]) e.channels) e.qcap e.wg,
      ?_, ⟨?_, ?_⟩, htgt, ?_⟩
  · simp only [RoundRobinExecutor.Execute, htgt, hq]
  · show ringNext e.ids = (intSome 1 n).rotate (k + 1)
    rw [h.1, ringNext_eq_rotate, List.rotate_rotate]
  · show (chanUpdate _ _ e.channels).map Prod.fst = intKeys 1 n
    rw [chanUpdate_keys, h.2]
  · intro j
    by_cases hj : (1 + ((k % n : Nat) : Int)) = j
    · subst hj
      show chanLookup _ (chanUpdate _ _ e.channels) = _
      rw [chanLookup_update_self _ _ _ _ hq, hq, if_pos rfl]
      rfl
    · show chanLookup j (chanUpdate _ _ e.channels) = _
      rw [chanLookup_update_ne _ _ _ _ hj, if_neg hj]

theorem execTrace_inv (n : Nat) (hn : 1 ≤ n) :
    ∀ (rs : List Runner) (k : Nat) (e : RoundRobinExecutor), PoolInv n k e →
    ∃ ts e2, execTrace e rs = some (ts, e2) ∧ PoolInv n (k + rs.length) e2 ∧
      ts.length = rs.length ∧
      (∀ i, i < rs.length → ts[i]? = some (1 + (((k + i) % n : Nat) : Int))) ∧
      (∀ j : Int, chanLookup j e2.channels =
        (chanLookup j e.channels).map (fun q => q ++ assignedTo n k j rs)) := by
  intro rs
  induction rs with
  | nil =>
    intro k e he
    refine ⟨[], e, rfl, by simpa using he, rfl, ?_, ?_⟩
    · intro i hi
      simp at hi
    · intro j
      simp [assignedTo]
  | cons r rs ih =>
    intro k e he
    obtain ⟨e1, hstep, hinv1, htgt, hlook⟩ := Execute_step n k hn e r he
    obtain ⟨ts, e2, htr, hinv2, hlen, hts, hlk⟩ := ih (k + 1) e1 hinv1
    refine ⟨(1 + ((k % n : Nat) : Int)) :: ts, e2, ?_, ?_, ?_, ?_, ?_⟩
    · simp only [execTrace, htgt, hstep, htr]
      rfl
    · have harith : k + 1 + rs.length = k + (rs.length + 1) := by omega
      rw [harith] at hinv2
      simpa using hinv2
    · simp [hlen]
    · intro i hi
      simp only [List.length_cons] at hi
      cases i with
      | zero => simp
      | succ i =>
        simp only [List.getElem?_cons_succ]
        rw [hts i (by omega)]
        have harith : k + 1 + i = k + (i + 1) := by omega
        rw [harith]
    · intro j
      rw [hlk j, hlook j]
      show _ = (chanLookup j e.channels).map
          (fun q => q ++ assignedTo n k j (r :: rs))
      rw [show assignedTo n k j (r :: rs)
            = if (1 + ((k % n : Nat) : Int)) = j then r :: assignedTo n (k + 1) j rs
              else assignedTo n (k + 1) j rs from rfl]
      by_cases hj : (1 + ((k % n : Nat) : Int)) = j
      · rw [if_pos hj, if_pos hj]
        cases hc : chanLookup j e.channels with
        | none => rfl
        | some q0 =>
          show some ((q0 ++ [r]) ++ assignedTo n (k + 1) j rs)
              = some (q0 ++ (r :: assignedTo n (k + 1) j rs))
          rw [List.append_assoc, List.singleton_append]
      · rw [if_neg hj, if_neg hj]

theorem ids_vals_of_inv (n k : Nat) (e : RoundRobinExecutor) (h : PoolInv n k e) :
    ∀ v ∈ e.ids, ∃ id : Int, v = some id ∧ 1 ≤ id ∧ id ≤ (n : Int) := by
  intro v hv
  rw [h.1, List.mem_rotate, mem_intSome] at hv
  obtain ⟨j, hj, rfl⟩ := hv
  exact ⟨1 + j, rfl, by omega, by omega⟩

/-- C2: `NewRoundRobinExecutor(nThreads, threadQueueSize)` fails with the
invalid-argument error, creating no pool, exactly when `nThreads < 1` or
`threadQueueSize < 1`; for positive arguments it succeeds with a pool of
exactly `nThreads` started workers (one per channel-map entry, all
registered with the termination tracker), each with an empty queue of the
given capacity, and the cursor at worker 1. -/
theorem construction_validation (nThreads threadQueueSize : Int) :
    (NewRoundRobinExecutor nThreads threadQueueSize
        = .error "executor: invalid argument" ↔
      nThreads < 1 ∨ threadQueueSize < 1) ∧
    (1 ≤ nThreads → 1 ≤ threadQueueSize →
      ∃ p, NewRoundRobinExecutor nThreads threadQueueSize = .ok p ∧
        p.nWorkers = nThreads.toNat ∧ p.wg = nThreads.toNat ∧
        p.qcap = threadQueueSize.toNat ∧
        (∀ j : Int, 1 ≤ j → j ≤ nThreads → chanLookup j p.channels = some []) ∧
        p.target = some 1) := by
  constructor
  · constructor
    · intro h
      by_contra hc
      push_neg at hc
      obtain ⟨p, hp, -⟩ :=
        new_poolInv nThreads threadQueueSize (by omega) (by omega)
      rw [hp] at h
      exact Except.noConfusion h
    · intro h
      simp only [NewRoundRobinExecutor, if_pos h]
  · intro hN hQ
    obtain ⟨p, hp, hinv, hw, hwg, hq, hlk⟩ :=
      new_poolInv nThreads threadQueueSize hN hQ
    refine ⟨p, hp, hw, hwg, hq, hlk, ?_⟩
    have ht := target_of_inv nThreads.toNat 0 (by omega) p hinv
    simpa using ht

/-- Witness for C2 at concrete arguments. -/
theorem construction_validation_witness :
    NewRoundRobinExecutor 0 5 = .error "executor: invalid argument" ∧
    ∃ p, NewRoundRobinExecutor 2 3 = .ok p ∧ p.nWorkers = 2 ∧
      p.target = some 1 := by
  constructor
  · exact (construction_validation 0 5).1.mpr (by omega)
  · obtain ⟨p, hp, hw, -, -, -, ht⟩ :=
      (construction_validation 2 3).2 (by omega) (by omega)
    exact ⟨p, hp, hw, ht⟩

/-- C1: for a pool built by `NewRoundRobinExecutor(N, Q)` with `N ≥ 1` and
`Q ≥ 1`, the cursor starts at worker 1; submitting a list of runnables
with no concurrency and no queue-full blocking dispatches the `i`-th
runnable (0-indexed here, `(i mod N) + 1 = ((i+1-1) mod N) + 1`) to worker
`(i mod N) + 1`, the cursor advances exactly one position per call
(after `k` calls it reads `(k mod N) + 1`, wrapping from `N` back to 1),
and each worker's queue ends up holding exactly the runnables assigned to
it, in order. -/
theorem round_robin_assignment (nThreads threadQueueSize : Int)
    (hN : 1 ≤ nThreads) (hQ : 1 ≤ threadQueueSize)
    (p : RoundRobinExecutor)
    (hp : NewRoundRobinExecutor nThreads threadQueueSize = .ok p)
    (rs : List Runner) :
    p.target = some 1 ∧
    ∃ ts p2, execTrace p rs = some (ts, p2) ∧
      (∀ i, i < rs.length →
        ts[i]? = some (1 + ((i % nThreads.toNat : Nat) : Int))) ∧
      p2.target = some (1 + ((rs.length % nThreads.toNat : Nat) : Int)) ∧
      (∀ j : Int, 1 ≤ j → j ≤ nThreads →
        chanLookup j p2.channels = some (assignedTo nThreads.toNat 0 j rs)) := by
  have hn : 1 ≤ nThreads.toNat := by omega
  obtain ⟨p0, hp0, hinv0, -, -, -, hlk0⟩ :=
    new_poolInv nThreads threadQueueSize hN hQ
  rw [hp0] at hp
  injection hp with hpp
  subst hpp
  constructor
  · have ht := target_of_inv nThreads.toNat 0 hn p0 hinv0
    simpa using ht
  · obtain ⟨ts, p2, htr, hinv2, hlen, hts, hlk⟩ :=
      execTrace_inv nThreads.toNat hn rs 0 p0 hinv0
    refine ⟨ts, p2, htr, ?_, ?_, ?_⟩
    · intro i hi
      have h := hts i hi
      simpa using h
    · have ht := target_of_inv nThreads.toNat (0 + rs.length) hn p2 hinv2
      simpa using ht
    · intro j h1 hj
      rw [hlk j, hlk0 j h1 hj]
      rfl

/-- Witness for C1: a pool with two workers dispatches three runnables to
workers 1, 2, 1 in order. -/
theorem round_robin_assignment_witness :
    ∃ p, NewRoundRobinExecutor 2 1 = .ok p ∧ p.target = some 1 ∧
      ∃ ts p2, execTrace p [7, 8, 9] = some (ts, p2) ∧
        ts[0]? = some 1 ∧ ts[1]? = some 2 ∧ ts[2]? = some 1 ∧
        p2.target = some 2 := by
  obtain ⟨p, hp, -⟩ := new_poolInv 2 1 (by omega) (by omega)
  obtain ⟨h1, ts, p2, htr, hts, htgt, -⟩ :=
    round_robin_assignment 2 1 (by omega) (by omega) p hp [7, 8, 9]
  refine ⟨p, hp, h1, ts, p2, htr, ?_, ?_, ?_, ?_⟩
  · have h := hts 0 (by decide)
    rw [h]; decide
  · have h := hts 1 (by decide)
    rw [h]; decide
  · have h := hts 2 (by decide)
    rw [h]; decide
  · rw [htgt]; decide

/-- C9 (implicit): for every pool from a successful construction, every
ring slot holds `some id` with `1 ≤ id ≤ N` (the `interface\x7b\x7d`
type assertion to `int` cannot fail), the channel map has an entry for
every such identifier, and no sequence of `Execute` calls changes the
ring's value set or the map's key list; hence every `Execute` in the
sequence, and any further one, completes without panicking and sends on an
existing channel. -/
theorem execute_internal_safety (nThreads threadQueueSize : Int)
    (hN : 1 ≤ nThreads) (hQ : 1 ≤ threadQueueSize)
    (p : RoundRobinExecutor)
    (hp : NewRoundRobinExecutor nThreads threadQueueSize = .ok p)
    (rs : List Runner) :
    (∀ v ∈ p.ids, ∃ id : Int, v = some id ∧ 1 ≤ id ∧ id ≤ nThreads) ∧
    ∃ ts p2, execTrace p rs = some (ts, p2) ∧
      (∀ v ∈ p2.ids, ∃ id : Int, v = some id ∧ 1 ≤ id ∧ id ≤ nThreads) ∧
      p2.channels.map Prod.fst = p.channels.map Prod.fst ∧
      (∀ r2 : Runner, (p2.Execute r2).isSome) ∧
      (p2.target).isSome := by
  have hn : 1 ≤ nThreads.toNat := by omega
  have hcast : ((nThreads.toNat : Nat) : Int) = nThreads := by omega
  obtain ⟨p0, hp0, hinv0, -⟩ := new_poolInv nThreads threadQueueSize hN hQ
  rw [hp0] at hp
  injection hp with hpp
  subst hpp
  obtain ⟨ts, p2, htr, hinv2, -, -, -⟩ :=
    execTrace_inv nThreads.toNat hn rs 0 p0 hinv0
  refine ⟨?_, ts, p2, htr, ?_, ?_, ?_, ?_⟩
  · intro v hv
    obtain ⟨id, hid, h1, h2⟩ := ids_vals_of_inv _ _ _ hinv0 v hv
    exact ⟨id, hid, h1, by omega⟩
  · intro v hv
    obtain ⟨id, hid, h1, h2⟩ := ids_vals_of_inv _ _ _ hinv2 v hv
    exact ⟨id, hid, h1, by omega⟩
  · rw [hinv2.2, hinv0.2]
  · intro r2
    obtain ⟨e2, he2, -⟩ :=
      Execute_step nThreads.toNat (0 + rs.length) hn p2 r2 hinv2
    rw [he2]
    rfl
  · rw [target_of_inv nThreads.toNat (0 + rs.length) hn p2 hinv2]
    rfl

/-- Witness for C9 at concrete arguments. -/
theorem execute_internal_safety_witness :
    ∃ p, NewRoundRobinExecutor 2 1 = .ok p ∧
      ∃ ts p2, execTrace p [4, 5, 6] = some (ts, p2) ∧
        (∀ r2 : Runner, (p2.Execute r2).isSome) := by
  obtain ⟨p, hp, -⟩ := new_poolInv 2 1 (by omega) (by omega)
  obtain ⟨-, ts, p2, htr, -, -, hex, -⟩ :=
    execute_internal_safety 2 1 (by omega) (by omega) p hp [4, 5, 6]
  exact ⟨p, hp, ts, p2, htr, hex⟩

/-- C5: `Task.Run` invokes the wrapped function with the stored argument
and the task's response channel and never fails itself; for a task whose
wrapped function publishes the fixed value `v` to its response channel,
after `Run` completes the response channel returned by `NewTask` (the
same channel stored in the task) holds exactly `v`, and reading it yields
`v`. -/
theorem task_run_postcondition {A V : Type} (doF : A → Chan V → Chan V)
    (arg : A) (v : V)
    (hpub : ∀ (a : A) (c : Chan V), doF a c = (Chan.send c v).getD c) :
    (NewTask doF arg).2 = (NewTask doF arg).1.r ∧
    (Task.Run (NewTask doF arg).1).r.buf = [v] ∧
    Chan.recv (Task.Run (NewTask doF arg).1).r
      = some (v, { buf := [], cap := 2 }) := by
  refine ⟨rfl, ?_, ?_⟩
  · show (doF arg { buf := [], cap := 2 }).buf = [v]
    rw [hpub]
    rfl
  · show Chan.recv (doF arg { buf := [], cap := 2 }) = _
    rw [hpub]
    rfl

/-- Witness for C5: a concrete task publishing 42. -/
theorem task_run_postcondition_witness :
    (Task.Run (NewTask (fun (_ : Nat) (c : Chan Nat) =>
        (Chan.send c 42).getD c) 0).1).r.buf = [42] := by
  exact (task_run_postcondition
    (fun (_ : Nat) (c : Chan Nat) => (Chan.send c 42).getD c) 0 42
    (fun a c => rfl)).2.1

/-- C8: `NewTask` and `NewCallable` each create their response/error
channel with buffer capacity 2, so a publish on such a channel that holds
at most one prior value never blocks the publishing worker. -/
theorem publish_never_blocks {A V E : Type} (doF : A → Chan V → Chan V)
    (arg : A) (doE : Chan E → Chan E) :
    (NewTask doF arg).2.cap = 2 ∧ (NewCallable doE).2.cap = 2 ∧
    (∀ (c : Chan V) (v : V), c.cap = 2 → c.buf.length ≤ 1 →
      (c.send v).isSome) := by
  refine ⟨rfl, rfl, ?_⟩
  intro c v hcap hlen
  rw [Chan.send, if_pos (by omega)]
  rfl

/-- Witness for C8 at a concrete channel holding one value. -/
theorem publish_never_blocks_witness :
    (NewTask (fun (_ : Nat) (c : Chan Nat) => c) 0).2.cap = 2 ∧
    (NewCallable (fun c : Chan Nat => c)).2.cap = 2 ∧
    (Chan.send { buf := [3], cap := 2 } 5).isSome := by
  obtain ⟨h1, h2, h3⟩ :=
    publish_never_blocks (fun (_ : Nat) (c : Chan Nat) => c) 0
      (fun c : Chan Nat => c)
  exact ⟨h1, h2, h3 { buf := [3], cap := 2 } 5 rfl (by decide)⟩

/-!  Helper lemmas for the concurrent transition system. -/

theorem mem_workerIds (n j : Nat) : j ∈ workerIds n ↔ 1 ≤ j ∧ j ≤ n := by
  rw [workerIds, List.mem_range'_1]
  omega

theorem nodup_workerIds (n : Nat) : (workerIds n).Nodup :=
  List.nodup_range' 1 n

theorem altRep_append (i : Nat) (ds : List Runner) (r : Runner) :
    altRep i (ds ++ [r]) = altRep i ds ++ [.beg i r, .fin i r] := by
  induction ds with
  | nil => rfl
  | cons d ds ih => simp [altRep, ih]

theorem wlog_append_self (i : Nat) (log : List Event) (e : Event)
    (h : e.wid = i) : wlog i (log ++ [e]) = wlog i log ++ [e] := by
  rw [wlog, List.filter_append, wlog]
  congr 1
  simp [evFor, h]

theorem wlog_append_other (i : Nat) (log : List Event) (e : Event)
    (h : e.wid ≠ i) : wlog i (log ++ [e]) = wlog i log := by
  rw [wlog, List.filter_append, wlog]
  have he : evFor i e = false := by
    simp [evFor]
    exact h
  simp [he]

theorem countActive_congr (n : Nat) (s s' : St)
    (h : ∀ j, 1 ≤ j → j ≤ n → (s'.workers j = .exited ↔ s.workers j = .exited)) :
    countActive n s' = countActive n s := by
  rw [countActive, countActive]
  congr 1
  refine List.filter_congr ?_
  intro j hj
  rw [mem_workerIds] at hj
  have hiff := h j hj.1 hj.2
  simp only [ne_eq, decide_eq_decide]
  exact not_congr hiff

theorem filter_length_update {l : List Nat} {p q : Nat → Bool} {i : Nat}
    (hnd : l.Nodup) (hi : i ∈ l) (hp : p i = true)
    (hq : ∀ j, q j = if j = i then false else p j) :
    (l.filter q).length + 1 = (l.filter p).length := by
  induction l with
  | nil => simp at hi
  | cons x t ih =>
    rw [List.nodup_cons] at hnd
    rcases List.mem_cons.mp hi with hx | hx
    · subst hx
      have hqx : q i = false := by rw [hq, if_pos rfl]
      have hfilt : t.filter q = t.filter p := by
        refine List.filter_congr ?_
        intro j hj
        have hji : j ≠ i := fun hc => hnd.1 (hc ▸ hj)
        rw [hq, if_neg hji]
      rw [List.filter_cons_of_neg (by simp [hqx]),
          List.filter_cons_of_pos hp, hfilt]
      simp
    · have hxi : x ≠ i := fun hc => hnd.1 (hc ▸ hx)
      have hqx : q x = p x := by rw [hq, if_neg hxi]
      have hrec := ih hnd.2 hx
      cases hpx : p x with
      | true =>
        rw [List.filter_cons_of_pos (by rw [hqx, hpx]),
            List.filter_cons_of_pos hpx]
        simp only [List.length_cons]
        omega
      | false =>
        rw [List.filter_cons_of_neg (by simp [hqx, hpx]),
            List.filter_cons_of_neg (by simp [hpx])]
        exact hrec

theorem countActive_pos (n : Nat) (s : St) (i : Nat) (h1 : 1 ≤ i)
    (h2 : i ≤ n) (h : s.workers i ≠ .exited) : 1 ≤ countActive n s := by
  rw [countActive]
  have hmem : i ∈ (workerIds n).filter (fun j => decide (s.workers j ≠ .exited)) := by
    rw [List.mem_filter]
    exact ⟨(mem_workerIds n i).mpr ⟨h1, h2⟩, by simpa using h⟩
  have := List.length_pos.mpr (List.ne_nil_of_mem hmem)
  omega

theorem upd_self {B : Type} (f : Nat → B) (i : Nat) (b : B) :
    upd f i b i = b := by
  simp [upd]

theorem upd_ne {B : Type} (f : Nat → B) (i : Nat) (b : B) (j : Nat)
    (h : j ≠ i) : upd f i b j = f j := by
  simp [upd, h]

theorem begTail_executing (i : Nat) (s : St) (r : Runner)
    (h : s.workers i = .executing r) : begTail i s = [.beg i r] := by
  unfold begTail
  rw [h]

theorem begTail_waiting (i : Nat) (s : St) (h : s.workers i = .waiting) :
    begTail i s = [] := by
  unfold begTail
  rw [h]

theorem begTail_stopping (i : Nat) (s : St) (h : s.workers i = .stopping) :
    begTail i s = [] := by
  unfold begTail
  rw [h]

theorem begTail_exited (i : Nat) (s : St) (h : s.workers i = .exited) :
    begTail i s = [] := by
  unfold begTail
  rw [h]

theorem begTail_congr (j : Nat) (s s' : St)
    (h : s'.workers j = s.workers j) : begTail j s' = begTail j s := by
  unfold begTail
  rw [h]

theorem execList_executing (i : Nat) (s : St) (r : Runner)
    (h : s.workers i = .executing r) : execList i s = [r] := by
  unfold execList
  rw [h]

theorem execList_waiting (i : Nat) (s : St) (h : s.workers i = .waiting) :
    execList i s = [] := by
  unfold execList
  rw [h]

theorem execList_stopping (i : Nat) (s : St) (h : s.workers i = .stopping) :
    execList i s = [] := by
  unfold execList
  rw [h]

theorem execList_exited (i : Nat) (s : St) (h : s.workers i = .exited) :
    execList i s = [] := by
  unfold execList
  rw [h]

theorem execList_congr (j : Nat) (s s' : St)
    (h : s'.workers j = s.workers j) : execList j s' = execList j s := by
  unfold execList
  rw [h]

theorem PhaseOK_congr (j : Nat) (s s' : St) (h1 : s'.shut = s.shut)
    (h2 : s'.sigs j = s.sigs j) (h3 : s'.workers j = s.workers j) :
    PhaseOK s' j ↔ PhaseOK s j := by
  unfold PhaseOK
  rw [h1, h2, h3]

theorem PhaseOK_idle (s : St) (j : Nat) (h : s.shut = .sIdle) :
    PhaseOK s j ↔
      (s.sigs j = 0 ∧
        (s.workers j = .waiting ∨ ∃ r, s.workers j = .executing r)) := by
  unfold PhaseOK
  rw [h]

theorem PhaseOK_bcast (s : St) (j : Nat) (pending : List Nat)
    (h : s.shut = .sBroadcast pending) :
    PhaseOK s j ↔
      (if j ∈ pending then
        s.sigs j = 0 ∧
          (s.workers j = .waiting ∨ ∃ r, s.workers j = .executing r)
      else
        s.sigs j = 1 ∧ (s.workers j = .stopping ∨ s.workers j = .exited)) := by
  unfold PhaseOK
  rw [h]

theorem PhaseOK_wait (s : St) (j : Nat) (h : s.shut = .sWaitWG) :
    PhaseOK s j ↔
      (s.sigs j = 1 ∧ (s.workers j = .stopping ∨ s.workers j = .exited)) := by
  unfold PhaseOK
  rw [h]

theorem PhaseOK_ret (s : St) (j : Nat) (h : s.shut = .sReturned) :
    PhaseOK s j ↔ (s.sigs j = 1 ∧ s.workers j = .exited) := by
  unfold PhaseOK
  rw [h]

theorem inv_submit (sys : Sys) (subs0 : List Runner) (s : St)
    (r : Runner) (rest : List Runner) (h : Inv sys subs0 s)
    (h2 : s.subs = r :: rest) :
    Inv sys subs0 (doSubmit sys s r rest) := by
  obtain ⟨hc1, hc2⟩ := h.cursor_range
  refine ⟨?_, ?_, ?_, ?_, ?_, ?_, ?_, ?_, ?_⟩
  · intro i
    exact h.wlog_eq i
  · intro i
    show upd s.enq s.cursor (s.enq s.cursor ++ [r]) i
        = s.dones i ++ execList i s
          ++ upd s.queues s.cursor (s.queues s.cursor ++ [r]) i
    by_cases hi : i = s.cursor
    · subst hi
      rw [upd_self, upd_self, h.enq_eq s.cursor]
      simp [List.append_assoc]
    · rw [upd_ne _ _ _ _ hi, upd_ne _ _ _ _ hi, h.enq_eq i]
  · show (s.consumed ++ [r]) ++ rest = subs0
    rw [List.append_assoc, List.singleton_append, ← h2, h.consumed_eq]
  · intro i
    show (upd s.enq s.cursor (s.enq s.cursor ++ [r]) i).Sublist
        (s.consumed ++ [r])
    by_cases hi : i = s.cursor
    · subst hi
      rw [upd_self]
      exact (h.enq_sub s.cursor).append (List.Sublist.refl [r])
    · rw [upd_ne _ _ _ _ hi]
      exact (h.enq_sub i).trans (List.sublist_append_left _ _)
  · exact h.wg_eq
  · exact h.phase
  · exact h.bcast
  · intro i hi
    have hold := h.out_range i hi
    have hne : i ≠ s.cursor := fun hc => hi (hc ▸ ⟨hc1, hc2⟩)
    refine ⟨hold.1, ?_, ?_, hold.2.2.2⟩
    · show upd s.queues s.cursor (s.queues s.cursor ++ [r]) i = []
      rw [upd_ne _ _ _ _ hne]
      exact hold.2.1
    · show upd s.enq s.cursor (s.enq s.cursor ++ [r]) i = []
      rw [upd_ne _ _ _ _ hne]
      exact hold.2.2.1
  · constructor
    · show 1 ≤ nextId sys.N s.cursor
      unfold nextId
      split <;> omega
    · show nextId sys.N s.cursor ≤ sys.N
      unfold nextId
      split <;> omega

theorem inv_dequeue (sys : Sys) (subs0 : List Runner) (s : St)
    (i : Nat) (r : Runner) (rest : List Runner) (h : Inv sys subs0 s)
    (h1 : 1 ≤ i) (h2 : i ≤ sys.N) (hw : s.workers i = .waiting)
    (hq : s.queues i = r :: rest) :
    Inv sys subs0 (doDequeue s i r rest) := by
  have hwi : (doDequeue s i r rest).workers i = .executing r := upd_self _ _ _
  refine ⟨?_, ?_, ?_, ?_, ?_, ?_, ?_, ?_, ?_⟩
  · intro j
    by_cases hj : j = i
    · subst hj
      show wlog j (s.log ++ [.beg j r]) = altRep j (s.dones j) ++ _
      rw [wlog_append_self j s.log (.beg j r) rfl, h.wlog_eq j,
          begTail_waiting j s hw, begTail_executing j (doDequeue s j r rest) r hwi]
      simp
    · have hjne : Event.wid (.beg i r) ≠ j := fun hc => hj hc.symm
      show wlog j (s.log ++ [.beg i r]) = altRep j (s.dones j) ++ _
      rw [wlog_append_other j s.log (.beg i r) hjne, h.wlog_eq j,
          begTail_congr j s (doDequeue s i r rest)
            (upd_ne s.workers i (.executing r) j hj)]
  · intro j
    by_cases hj : j = i
    · subst hj
      show s.enq j = s.dones j ++ execList j _ ++ upd s.queues j rest j
      rw [execList_executing j _ r hwi, upd_self, h.enq_eq j,
          execList_waiting j s hw, hq]
      simp
    · show s.enq j = s.dones j ++ execList j _ ++ upd s.queues i rest j
      rw [execList_congr j s _ (upd_ne _ _ _ _ hj), upd_ne _ _ _ _ hj,
          h.enq_eq j]
  · exact h.consumed_eq
  · exact h.enq_sub
  · show s.wg = countActive sys.N (doDequeue s i r rest)
    rw [h.wg_eq]
    refine (countActive_congr sys.N s (doDequeue s i r rest) ?_).symm
    intro j hj1 hj2
    by_cases hj : j = i
    · subst hj
      rw [show (doDequeue s j r rest).workers j = .executing r from
            upd_self _ _ _, hw]
      constructor <;> intro hc <;> exact WStatus.noConfusion hc
    · rw [show (doDequeue s i r rest).workers j = s.workers j from
            upd_ne _ _ _ _ hj]
  · intro j hj1 hj2
    have hp := h.phase j hj1 hj2
    by_cases hj : j = i
    · subst hj
      cases hshut : s.shut with
      | sIdle =>
        rw [PhaseOK_idle _ j (show (doDequeue s j r rest).shut = _ from hshut)]
        rw [PhaseOK_idle s j hshut] at hp
        exact ⟨hp.1, Or.inr ⟨r, hwi⟩⟩
      | sBroadcast pending =>
        rw [PhaseOK_bcast _ j pending
              (show (doDequeue s j r rest).shut = _ from hshut)]
        rw [PhaseOK_bcast s j pending hshut] at hp
        by_cases hmem : j ∈ pending
        · rw [if_pos hmem] at hp ⊢
          exact ⟨hp.1, Or.inr ⟨r, hwi⟩⟩
        · rw [if_neg hmem] at hp
          rcases hp.2 with hc | hc <;>
            (rw [hw] at hc; exact WStatus.noConfusion hc)
      | sWaitWG =>
        rw [PhaseOK_wait s j hshut] at hp
        rcases hp.2 with hc | hc <;>
          (rw [hw] at hc; exact WStatus.noConfusion hc)
      | sReturned =>
        rw [PhaseOK_ret s j hshut] at hp
        rw [hw] at hp
        exact WStatus.noConfusion hp.2
    · rw [PhaseOK_congr j s (doDequeue s i r rest) rfl rfl
            (upd_ne _ _ _ _ hj)]
      exact hp
  · exact h.bcast
  · intro j hj
    have hold := h.out_range j hj
    have hne : j ≠ i := fun hc => hj (hc ▸ ⟨h1, h2⟩)
    refine ⟨?_, ?_, hold.2.2.1, hold.2.2.2.1, hold.2.2.2.2⟩
    · show upd s.workers i (.executing r) j = .waiting
      rw [upd_ne _ _ _ _ hne]
      exact hold.1
    · show upd s.queues i rest j = []
      rw [upd_ne _ _ _ _ hne]
      exact hold.2.1
  · exact h.cursor_range

theorem inv_finish (sys : Sys) (subs0 : List Runner) (s : St)
    (i : Nat) (r : Runner) (h : Inv sys subs0 s)
    (hw : s.workers i = .executing r) :
    Inv sys subs0 (doFinish s i r) := by
  have hrange : 1 ≤ i ∧ i ≤ sys.N := by
    by_contra hc
    have hwout := (h.out_range i hc).1
    rw [hwout] at hw
    exact WStatus.noConfusion hw
  have hwi : (doFinish s i r).workers i = .waiting := upd_self _ _ _
  refine ⟨?_, ?_, ?_, ?_, ?_, ?_, ?_, ?_, ?_⟩
  · intro j
    by_cases hj : j = i
    · subst hj
      show wlog j (s.log ++ [.fin j r])
          = altRep j (upd s.dones j (s.dones j ++ [r]) j) ++ _
      rw [wlog_append_self j s.log (.fin j r) rfl, h.wlog_eq j,
          begTail_executing j s r hw, upd_self, altRep_append,
          begTail_waiting j (doFinish s j r) hwi]
      simp
    · show wlog j (s.log ++ [.fin i r])
          = altRep j (upd s.dones i (s.dones i ++ [r]) j) ++ _
      rw [wlog_append_other j s.log (.fin i r) (fun hc => hj hc.symm),
          h.wlog_eq j, upd_ne s.dones i _ j hj,
          begTail_congr j s (doFinish s i r) (upd_ne s.workers i _ j hj)]
  · intro j
    by_cases hj : j = i
    · subst hj
      show s.enq j
          = upd s.dones j (s.dones j ++ [r]) j ++ execList j _ ++ s.queues j
      rw [upd_self, execList_waiting j (doFinish s j r) hwi, h.enq_eq j,
          execList_executing j s r hw]
      simp
    · show s.enq j
          = upd s.dones i (s.dones i ++ [r]) j ++ execList j _ ++ s.queues j
      rw [upd_ne s.dones i _ j hj,
          execList_congr j s (doFinish s i r) (upd_ne s.workers i _ j hj),
          h.enq_eq j]
  · exact h.consumed_eq
  · exact h.enq_sub
  · show s.wg = countActive sys.N (doFinish s i r)
    rw [h.wg_eq]
    refine (countActive_congr sys.N s (doFinish s i r) ?_).symm
    intro j hj1 hj2
    by_cases hj : j = i
    · subst hj
      rw [show (doFinish s j r).workers j = .waiting from upd_self _ _ _, hw]
      constructor <;> intro hc <;> exact WStatus.noConfusion hc
    · rw [show (doFinish s i r).workers j = s.workers j from
            upd_ne _ _ _ _ hj]
  · intro j hj1 hj2
    have hp := h.phase j hj1 hj2
    by_cases hj : j = i
    · subst hj
      cases hshut : s.shut with
      | sIdle =>
        rw [PhaseOK_idle (doFinish s j r) j
              (show (doFinish s j r).shut = _ from hshut)]
        rw [PhaseOK_idle s j hshut] at hp
        exact ⟨hp.1, Or.inl hwi⟩
      | sBroadcast pending =>
        rw [PhaseOK_bcast (doFinish s j r) j pending
              (show (doFinish s j r).shut = _ from hshut)]
        rw [PhaseOK_bcast s j pending hshut] at hp
        by_cases hmem : j ∈ pending
        · rw [if_pos hmem] at hp ⊢
          exact ⟨hp.1, Or.inl hwi⟩
        · rw [if_neg hmem] at hp
          rcases hp.2 with hc | hc <;>
            (rw [hw] at hc; exact WStatus.noConfusion hc)
      | sWaitWG =>
        rw [PhaseOK_wait s j hshut] at hp
        rcases hp.2 with hc | hc <;>
          (rw [hw] at hc; exact WStatus.noConfusion hc)
      | sReturned =>
        rw [PhaseOK_ret s j hshut] at hp
        rw [hw] at hp
        exact WStatus.noConfusion hp.2
    · rw [PhaseOK_congr j s (doFinish s i r) rfl rfl (upd_ne _ _ _ _ hj)]
      exact hp
  · exact h.bcast
  · intro j hj
    have hold := h.out_range j hj
    have hne : j ≠ i := fun hc => hj (hc ▸ hrange)
    refine ⟨?_, hold.2.1, hold.2.2.1, ?_, hold.2.2.2.2⟩
    · show upd s.workers i .waiting j = .waiting
      rw [upd_ne _ _ _ _ hne]
      exact hold.1
    · show upd s.dones i (s.dones i ++ [r]) j = []
      rw [upd_ne _ _ _ _ hne]
      exact hold.2.2.2.1
  · exact h.cursor_range

theorem inv_shutStart (sys : Sys) (subs0 : List Runner) (s : St)
    (perm : List Nat) (h : Inv sys subs0 s) (hshut : s.shut = .sIdle)
    (hperm : perm.Perm (workerIds sys.N)) :
    Inv sys subs0 (doShutStart s perm) := by
  refine ⟨h.wlog_eq, h.enq_eq, h.consumed_eq, h.enq_sub, h.wg_eq, ?_, ?_,
      h.out_range, h.cursor_range⟩
  · intro j hj1 hj2
    have hp := h.phase j hj1 hj2
    rw [PhaseOK_idle s j hshut] at hp
    rw [PhaseOK_bcast (doShutStart s perm) j perm rfl,
        if_pos (hperm.mem_iff.mpr ((mem_workerIds sys.N j).mpr ⟨hj1, hj2⟩))]
    exact hp
  · intro pending hpend
    have hinj : ShutSt.sBroadcast perm = ShutSt.sBroadcast pending := hpend
    have hpp : perm = pending := by injection hinj
    subst hpp
    constructor
    · exact (hperm.nodup_iff).mpr (nodup_workerIds sys.N)
    · intro j hjp
      exact (mem_workerIds sys.N j).mp (hperm.mem_iff.mp hjp)

theorem inv_rendezvous (sys : Sys) (subs0 : List Runner) (s : St)
    (i : Nat) (rest : List Nat) (h : Inv sys subs0 s)
    (hshut : s.shut = .sBroadcast (i :: rest))
    (hw : s.workers i = .waiting) :
    Inv sys subs0 (doRendezvous s i rest) := by
  obtain ⟨hnd, hmem⟩ := h.bcast (i :: rest) hshut
  have hir : 1 ≤ i ∧ i ≤ sys.N := hmem i (List.mem_cons_self i rest)
  have hinotr : i ∉ rest := (List.nodup_cons.mp hnd).1
  have hwi : (doRendezvous s i rest).workers i = .stopping := upd_self _ _ _
  refine ⟨?_, ?_, h.consumed_eq, h.enq_sub, ?_, ?_, ?_, ?_, h.cursor_range⟩
  · intro j
    by_cases hj : j = i
    · subst hj
      show wlog j s.log = altRep j (s.dones j) ++ _
      rw [h.wlog_eq j, begTail_waiting j s hw,
          begTail_stopping j (doRendezvous s j rest) hwi]
    · show wlog j s.log = altRep j (s.dones j) ++ _
      rw [h.wlog_eq j,
          begTail_congr j s (doRendezvous s i rest)
            (upd_ne s.workers i _ j hj)]
  · intro j
    by_cases hj : j = i
    · subst hj
      show s.enq j = s.dones j ++ execList j _ ++ s.queues j
      rw [execList_stopping j (doRendezvous s j rest) hwi, h.enq_eq j,
          execList_waiting j s hw]
    · show s.enq j = s.dones j ++ execList j _ ++ s.queues j
      rw [execList_congr j s (doRendezvous s i rest)
            (upd_ne s.workers i _ j hj), h.enq_eq j]
  · show s.wg = countActive sys.N (doRendezvous s i rest)
    rw [h.wg_eq]
    refine (countActive_congr sys.N s (doRendezvous s i rest) ?_).symm
    intro j hj1 hj2
    by_cases hj : j = i
    · subst hj
      rw [show (doRendezvous s j rest).workers j = .stopping from
            upd_self _ _ _, hw]
      constructor <;> intro hc <;> exact WStatus.noConfusion hc
    · rw [show (doRendezvous s i rest).workers j = s.workers j from
            upd_ne _ _ _ _ hj]
  · intro j hj1 hj2
    have hp := h.phase j hj1 hj2
    rw [PhaseOK_bcast s j (i :: rest) hshut] at hp
    rw [PhaseOK_bcast (doRendezvous s i rest) j rest rfl]
    by_cases hji : j = i
    · subst hji
      rw [if_pos (List.mem_cons_self j rest)] at hp
      rw [if_neg hinotr]
      refine ⟨?_, Or.inl hwi⟩
      show upd s.sigs j (s.sigs j + 1) j = 1
      rw [upd_self, hp.1]
    · have hsig : (doRendezvous s i rest).sigs j = s.sigs j :=
        upd_ne _ _ _ _ hji
      have hwork : (doRendezvous s i rest).workers j = s.workers j :=
        upd_ne _ _ _ _ hji
      by_cases hjr : j ∈ rest
      · rw [if_pos (List.mem_cons_of_mem i hjr)] at hp
        rw [if_pos hjr, hsig, hwork]
        exact hp
      · have hjcons : j ∉ i :: rest := by
          rw [List.mem_cons]
          rintro (hc | hc)
          · exact hji hc
          · exact hjr hc
        rw [if_neg hjcons] at hp
        rw [if_neg hjr, hsig, hwork]
        exact hp
  · intro pending hpend
    have hinj : ShutSt.sBroadcast rest = ShutSt.sBroadcast pending := hpend
    have hpp : rest = pending := by injection hinj
    subst hpp
    exact ⟨(List.nodup_cons.mp hnd).2,
      fun j hj => hmem j (List.mem_cons_of_mem i hj)⟩
  · intro j hj
    have hold := h.out_range j hj
    have hne : j ≠ i := fun hc => hj (hc ▸ hir)
    refine ⟨?_, hold.2.1, hold.2.2.1, hold.2.2.2.1, ?_⟩
    · show upd s.workers i .stopping j = .waiting
      rw [upd_ne _ _ _ _ hne]
      exact hold.1
    · show upd s.sigs i (s.sigs i + 1) j = 0
      rw [upd_ne _ _ _ _ hne]
      exact hold.2.2.2.2

theorem inv_broadcastDone (sys : Sys) (subs0 : List Runner) (s : St)
    (h : Inv sys subs0 s) (hshut : s.shut = .sBroadcast []) :
    Inv sys subs0 (doBroadcastDone s) := by
  refine ⟨h.wlog_eq, h.enq_eq, h.consumed_eq, h.enq_sub, h.wg_eq, ?_, ?_,
      h.out_range, h.cursor_range⟩
  · intro j hj1 hj2
    have hp := h.phase j hj1 hj2
    rw [PhaseOK_bcast s j [] hshut, if_neg (List.not_mem_nil j)] at hp
    rw [PhaseOK_wait (doBroadcastDone s) j rfl]
    exact hp
  · intro pending hpend
    exact ShutSt.noConfusion (show ShutSt.sWaitWG = _ from hpend)

theorem inv_wgReturn (sys : Sys) (subs0 : List Runner) (s : St)
    (h : Inv sys subs0 s) (hshut : s.shut = .sWaitWG) (hwg : s.wg = 0) :
    Inv sys subs0 (doReturn s) := by
  have hca : countActive sys.N s = 0 := by rw [← h.wg_eq]; exact hwg
  have hex : ∀ j, 1 ≤ j → j ≤ sys.N → s.workers j = .exited := by
    intro j hj1 hj2
    rw [countActive, List.length_eq_zero] at hca
    have hnot := (List.filter_eq_nil_iff.mp hca) j
      ((mem_workerIds sys.N j).mpr ⟨hj1, hj2⟩)
    simpa using hnot
  refine ⟨h.wlog_eq, h.enq_eq, h.consumed_eq, h.enq_sub, h.wg_eq, ?_, ?_,
      h.out_range, h.cursor_range⟩
  · intro j hj1 hj2
    have hp := h.phase j hj1 hj2
    rw [PhaseOK_wait s j hshut] at hp
    rw [PhaseOK_ret (doReturn s) j rfl]
    exact ⟨hp.1, hex j hj1 hj2⟩
  · intro pending hpend
    exact ShutSt.noConfusion (show ShutSt.sReturned = _ from hpend)

theorem inv_wExit (sys : Sys) (subs0 : List Runner) (s : St)
    (i : Nat) (h : Inv sys subs0 s) (hw : s.workers i = .stopping) :
    Inv sys subs0 (doExit s i) := by
  have hrange : 1 ≤ i ∧ i ≤ sys.N := by
    by_contra hc
    have hwout := (h.out_range i hc).1
    rw [hwout] at hw
    exact WStatus.noConfusion hw
  have hwi : (doExit s i).workers i = .exited := upd_self _ _ _
  refine ⟨?_, ?_, h.consumed_eq, h.enq_sub, ?_, ?_, h.bcast, ?_,
      h.cursor_range⟩
  · intro j
    by_cases hj : j = i
    · subst hj
      show wlog j s.log = altRep j (s.dones j) ++ _
      rw [h.wlog_eq j, begTail_stopping j s hw,
          begTail_exited j (doExit s j) hwi]
    · show wlog j s.log = altRep j (s.dones j) ++ _
      rw [h.wlog_eq j,
          begTail_congr j s (doExit s i) (upd_ne s.workers i _ j hj)]
  · intro j
    by_cases hj : j = i
    · subst hj
      show s.enq j = s.dones j ++ execList j _ ++ s.queues j
      rw [execList_exited j (doExit s j) hwi, h.enq_eq j,
          execList_stopping j s hw]
    · show s.enq j = s.dones j ++ execList j _ ++ s.queues j
      rw [execList_congr j s (doExit s i) (upd_ne s.workers i _ j hj),
          h.enq_eq j]
  · show s.wg - 1 = countActive sys.N (doExit s i)
    have hkey : (countActive sys.N (doExit s i)) + 1 = countActive sys.N s := by
      rw [countActive, countActive]
      refine filter_length_update (nodup_workerIds sys.N)
        ((mem_workerIds sys.N i).mpr hrange) (by rw [hw]; decide) ?_
      intro j
      by_cases hji : j = i
      · subst hji
        rw [if_pos rfl]
        have : (doExit s j).workers j = .exited := upd_self _ _ _
        rw [this]
        decide
      · rw [if_neg hji,
            show (doExit s i).workers j = s.workers j from upd_ne _ _ _ _ hji]
    rw [h.wg_eq]
    omega
  · intro j hj1 hj2
    have hp := h.phase j hj1 hj2
    by_cases hj : j = i
    · subst hj
      cases hshut : s.shut with
      | sIdle =>
        rw [PhaseOK_idle s j hshut] at hp
        rcases hp.2 with hc | ⟨r, hc⟩ <;>
          (rw [hw] at hc; exact WStatus.noConfusion hc)
      | sBroadcast pending =>
        rw [PhaseOK_bcast s j pending hshut] at hp
        rw [PhaseOK_bcast (doExit s j) j pending
              (show (doExit s j).shut = _ from hshut)]
        by_cases hmem : j ∈ pending
        · rw [if_pos hmem] at hp
          rcases hp.2 with hc | ⟨r, hc⟩ <;>
            (rw [hw] at hc; exact WStatus.noConfusion hc)
        · rw [if_neg hmem] at hp
          rw [if_neg hmem]
          exact ⟨hp.1, Or.inr hwi⟩
      | sWaitWG =>
        rw [PhaseOK_wait s j hshut] at hp
        rw [PhaseOK_wait (doExit s j) j
              (show (doExit s j).shut = _ from hshut)]
        exact ⟨hp.1, Or.inr hwi⟩
      | sReturned =>
        rw [PhaseOK_ret s j hshut] at hp
        rw [hw] at hp
        exact WStatus.noConfusion hp.2
    · rw [PhaseOK_congr j s (doExit s i) rfl rfl (upd_ne _ _ _ _ hj)]
      exact hp
  · intro j hj
    have hold := h.out_range j hj
    have hne : j ≠ i := fun hc => hj (hc ▸ hrange)
    refine ⟨?_, hold.2.1, hold.2.2.1, hold.2.2.2.1, hold.2.2.2.2⟩
    show upd s.workers i .exited j = .waiting
    rw [upd_ne _ _ _ _ hne]
    exact hold.1

theorem step_inv (sys : Sys) (subs0 : List Runner) (s s' : St)
    (h : Inv sys subs0 s) (hstep : Step sys s s') : Inv sys subs0 s' := by
  cases hstep with
  | submit r rest h1 h2 h3 => exact inv_submit sys subs0 s r rest h h2
  | dequeue i r rest h1 h2 hw hq =>
    exact inv_dequeue sys subs0 s i r rest h h1 h2 hw hq
  | finish i r hw => exact inv_finish sys subs0 s i r h hw
  | shutStart perm hshut hperm =>
    exact inv_shutStart sys subs0 s perm h hshut hperm
  | rendezvous i rest hshut hw =>
    exact inv_rendezvous sys subs0 s i rest h hshut hw
  | broadcastDone hshut => exact inv_broadcastDone sys subs0 s h hshut
  | wgReturn hshut hwg => exact inv_wgReturn sys subs0 s h hshut hwg
  | wExit i hw => exact inv_wExit sys subs0 s i h hw

theorem init_inv (sys : Sys) (subs0 : List Runner) (hN : 1 ≤ sys.N) :
    Inv sys subs0 (init sys subs0) := by
  refine ⟨?_, ?_, ?_, ?_, ?_, ?_, ?_, ?_, ?_⟩
  · intro i
    rfl
  · intro i
    rfl
  · rfl
  · intro i
    exact List.nil_sublist _
  · show sys.N = countActive sys.N (init sys subs0)
    rw [countActive]
    have hall : ∀ a ∈ workerIds sys.N,
        decide ((init sys subs0).workers a ≠ WStatus.exited) = true :=
      fun a _ => rfl
    rw [List.filter_eq_self.mpr hall, workerIds, List.length_range']
  · intro i h1 h2
    rw [PhaseOK_idle (init sys subs0) i rfl]
    exact ⟨rfl, Or.inl rfl⟩
  · intro pending hpend
    exact ShutSt.noConfusion (show ShutSt.sIdle = _ from hpend)
  · intro i hi
    exact ⟨rfl, rfl, rfl, rfl, rfl⟩
  · exact ⟨le_refl 1, hN⟩

theorem reach_inv (sys : Sys) (subs0 : List Runner) (s : St)
    (hN : 1 ≤ sys.N) (h : Reach sys subs0 s) : Inv sys subs0 s := by
  have h' : Relation.ReflTransGen (Step sys) (init sys subs0) s := h
  clear h
  induction h' with
  | refl => exact init_inv sys subs0 hN
  | tail hsteps hstep ih => exact step_inv sys subs0 _ _ ih hstep

theorem post_return_frozen (sys : Sys) (s : St)
    (hret : s.shut = .sReturned)
    (hw : ∀ i, 1 ≤ i → i ≤ sys.N → s.workers i = .exited)
    (hout : ∀ i, ¬(1 ≤ i ∧ i ≤ sys.N) → s.workers i = .waiting) :
    ∀ s2, Steps sys s s2 →
      s2.log = s.log ∧ s2.shut = .sReturned ∧ s2.workers = s.workers := by
  intro s2 hs2
  have h' : Relation.ReflTransGen (Step sys) s s2 := hs2
  clear hs2
  induction h' with
  | refl => exact ⟨rfl, hret, rfl⟩
  | tail hsteps hstep ih =>
    obtain ⟨ihlog, ihshut, ihw⟩ := ih
    cases hstep with
    | submit r rest h1 h2 h3 => exact ⟨ihlog, ihshut, ihw⟩
    | dequeue i r rest h1 h2 hwk hq =>
      rw [ihw, hw i h1 h2] at hwk
      exact WStatus.noConfusion hwk
    | finish i r hwk =>
      rw [ihw] at hwk
      by_cases hir : 1 ≤ i ∧ i ≤ sys.N
      · rw [hw i hir.1 hir.2] at hwk
        exact WStatus.noConfusion hwk
      · rw [hout i hir] at hwk
        exact WStatus.noConfusion hwk
    | shutStart perm hshut hperm =>
      rw [ihshut] at hshut
      exact ShutSt.noConfusion hshut
    | rendezvous i rest hshut hwk =>
      rw [ihshut] at hshut
      exact ShutSt.noConfusion hshut
    | broadcastDone hshut =>
      rw [ihshut] at hshut
      exact ShutSt.noConfusion hshut
    | wgReturn hshut hwg =>
      rw [ihshut] at hshut
      exact ShutSt.noConfusion hshut
    | wExit i hwk =>
      rw [ihw] at hwk
      by_cases hir : 1 ≤ i ∧ i ≤ sys.N
      · rw [hw i hir.1 hir.2] at hwk
        exact WStatus.noConfusion hwk
      · rw [hout i hir] at hwk
        exact WStatus.noConfusion hwk

theorem post_return_stuck (sys : Sys) (s : St)
    (hret : s.shut = .sReturned)
    (hw : ∀ i, 1 ≤ i → i ≤ sys.N → s.workers i = .exited)
    (hout : ∀ i, ¬(1 ≤ i ∧ i ≤ sys.N) → s.workers i = .waiting)
    (hfull : sys.Q ≤ (s.queues s.cursor).length) :
    ∀ s2, Steps sys s s2 → s2 = s := by
  intro s2 hs2
  have h' : Relation.ReflTransGen (Step sys) s s2 := hs2
  clear hs2
  induction h' with
  | refl => rfl
  | tail hsteps hstep ih =>
    subst ih
    cases hstep with
    | submit r rest h1 h2 h3 => omega
    | dequeue i r rest h1 h2 hwk hq =>
      rw [hw i h1 h2] at hwk
      exact WStatus.noConfusion hwk
    | finish i r hwk =>
      by_cases hir : 1 ≤ i ∧ i ≤ sys.N
      · rw [hw i hir.1 hir.2] at hwk
        exact WStatus.noConfusion hwk
      · rw [hout i hir] at hwk
        exact WStatus.noConfusion hwk
    | shutStart perm hshut hperm =>
      rw [hret] at hshut
      exact ShutSt.noConfusion hshut
    | rendezvous i rest hshut hwk =>
      rw [hret] at hshut
      exact ShutSt.noConfusion hshut
    | broadcastDone hshut =>
      rw [hret] at hshut
      exact ShutSt.noConfusion hshut
    | wgReturn hshut hwg =>
      rw [hret] at hshut
      exact ShutSt.noConfusion hshut
    | wExit i hwk =>
      by_cases hir : 1 ≤ i ∧ i ≤ sys.N
      · rw [hw i hir.1 hir.2] at hwk
        exact WStatus.noConfusion hwk
      · rw [hout i hir] at hwk
        exact WStatus.noConfusion hwk

/-- C3: after `Shutdown()` has returned, the termination tracker has
reached zero and every one of the `N` workers has received exactly one
stop signal, reported termination, and exited its worker loop. -/
theorem shutdown_protocol (sys : Sys) (subs0 : List Runner) (s : St)
    (hN : 1 ≤ sys.N) (h : Reach sys subs0 s) (hret : s.shut = .sReturned) :
    s.wg = 0 ∧
    ∀ i, 1 ≤ i → i ≤ sys.N → s.workers i = .exited ∧ s.sigs i = 1 := by
  have hinv := reach_inv sys subs0 s hN h
  have hall : ∀ i, 1 ≤ i → i ≤ sys.N →
      s.workers i = .exited ∧ s.sigs i = 1 := by
    intro i h1 h2
    have hp := hinv.phase i h1 h2
    rw [PhaseOK_ret s i hret] at hp
    exact ⟨hp.2, hp.1⟩
  refine ⟨?_, hall⟩
  rw [hinv.wg_eq, countActive, List.length_eq_zero, List.filter_eq_nil_iff]
  intro a ha
  rw [mem_workerIds] at ha
  simp [(hall a ha.1 ha.2).1]

/-- C10 (implicit): each stop-channel send is an unbuffered rendezvous, so
at every point of `Shutdown`'s broadcast loop each already-completed send
has actually been received by its worker (exactly one signal, worker
stopping or exited), and by the time `Shutdown` reaches the termination
wait all `N` workers have received their stop signals. -/
theorem stop_signal_handshake (sys : Sys) (subs0 : List Runner) (s : St)
    (hN : 1 ≤ sys.N) (h : Reach sys subs0 s) :
    (∀ pending, s.shut = .sBroadcast pending →
      ∀ i, 1 ≤ i → i ≤ sys.N → i ∉ pending →
        s.sigs i = 1 ∧ (s.workers i = .stopping ∨ s.workers i = .exited)) ∧
    (s.shut = .sWaitWG →
      ∀ i, 1 ≤ i → i ≤ sys.N →
        s.sigs i = 1 ∧ (s.workers i = .stopping ∨ s.workers i = .exited)) := by
  have hinv := reach_inv sys subs0 s hN h
  constructor
  · intro pending hsh i h1 h2 hnp
    have hp := hinv.phase i h1 h2
    rw [PhaseOK_bcast s i pending hsh, if_neg hnp] at hp
    exact hp
  · intro hsh i h1 h2
    have hp := hinv.phase i h1 h2
    rw [PhaseOK_wait s i hsh] at hp
    exact hp

/-!  The concrete trace A: submit, shutdown racing the queued runnable,
late submit. -/

theorem step_sA01 : Step sysA sA0 sA1 :=
  Step.submit sA0 0 [1] (Or.inl rfl) rfl (by decide)

theorem step_sA12 : Step sysA sA1 sA2 :=
  Step.shutStart sA1 [1] rfl (List.Perm.refl [1])

theorem step_sA23 : Step sysA sA2 sA3 :=
  Step.rendezvous sA2 1 [] rfl (by decide)

theorem step_sA34 : Step sysA sA3 sA4 :=
  Step.wExit sA3 1 (by decide)

theorem step_sA45 : Step sysA sA4 sA5 :=
  Step.broadcastDone sA4 rfl

theorem step_sA56 : Step sysA sA5 sA6 :=
  Step.wgReturn sA5 rfl (by decide)

theorem step_sA67 : Step sysA sA6 sA7 :=
  Step.submit sA6 1 [] (Or.inr rfl) rfl (by decide)

theorem reach_sA5 : Reach sysA [0, 1] sA5 :=
  ((((Relation.ReflTransGen.single step_sA01).tail step_sA12).tail
      step_sA23).tail step_sA34).tail step_sA45

theorem reach_sA6 : Reach sysA [0, 1] sA6 :=
  reach_sA5.tail step_sA56

theorem sA6_workers_exited : ∀ i, 1 ≤ i → i ≤ sysA.N →
    sA6.workers i = .exited := by
  intro i h1 h2
  have : i = 1 := by
    have hn : sysA.N = 1 := rfl
    omega
  subst this
  decide

theorem sA6_workers_out : ∀ i, ¬(1 ≤ i ∧ i ≤ sysA.N) →
    sA6.workers i = .waiting := by
  intro i hi
  have hne : i ≠ 1 := by
    have hn : sysA.N = 1 := rfl
    omega
  show upd sA3.workers 1 .exited i = .waiting
  rw [upd_ne _ _ _ _ hne]
  show upd sA0.workers 1 .stopping i = .waiting
  rw [upd_ne _ _ _ _ hne]
  rfl

/-- C6: racy abandonment at shutdown — there is an execution in which
runnable 0, though successfully enqueued onto worker 1's queue, is never
executed: the worker's select takes the simultaneously ready stop branch,
`Shutdown` returns with the runnable still queued, no execution event has
occurred, and none can ever occur afterwards. -/
theorem racy_abandonment :
    Reach sysA [0, 1] sA6 ∧ sA6.shut = .sReturned ∧
    (0 : Runner) ∈ sA6.queues 1 ∧ sA6.enq 1 = [0] ∧ sA6.log = [] ∧
    (∀ s2, Steps sysA sA6 s2 → s2.log = []) := by
  refine ⟨reach_sA6, rfl, by decide, by decide, rfl, ?_⟩
  intro s2 hs2
  have hfr := post_return_frozen sysA sA6 rfl sA6_workers_exited
    sA6_workers_out s2 hs2
  exact hfr.1

/-- Counterexample to C7 as stated: an `Execute` call issued after
`Shutdown` has returned does not always block forever — with free queue
space the enqueue completes immediately and the call returns normally
(here: pool state `sA6` is reached with `Shutdown` returned and runnable 1
still to submit; one `submit` step then completes, leaving no pending
submission). -/
theorem execute_after_shutdown_counterexample :
    Reach sysA [0, 1] sA6 ∧ sA6.shut = .sReturned ∧ sA6.subs = [1] ∧
    Step sysA sA6 sA7 ∧ sA7.subs = [] ∧ sA7.queues 1 = [0, 1] := by
  exact ⟨reach_sA6, rfl, rfl, step_sA67, rfl, by decide⟩

/-- C7 amended: after `Shutdown` has returned, an `Execute` call enqueues
onto a queue whose consuming worker no longer exists — no runnable is ever
executed afterwards (the event log never grows) — and the call blocks the
caller forever exactly when the target queue is already full (the whole
system is then stuck); with free queue space the call completes normally
instead of blocking. -/
theorem execute_after_shutdown (sys : Sys) (subs0 : List Runner) (s : St)
    (hN : 1 ≤ sys.N) (h : Reach sys subs0 s) (hret : s.shut = .sReturned) :
    (∀ s2, Steps sys s s2 → s2.log = s.log) ∧
    (sys.Q ≤ (s.queues s.cursor).length →
      ∀ s2, Steps sys s s2 → s2 = s) := by
  have hinv := reach_inv sys subs0 s hN h
  have hw : ∀ i, 1 ≤ i → i ≤ sys.N → s.workers i = .exited := by
    intro i h1 h2
    have hp := hinv.phase i h1 h2
    rw [PhaseOK_ret s i hret] at hp
    exact hp.2
  have hout : ∀ i, ¬(1 ≤ i ∧ i ≤ sys.N) → s.workers i = .waiting :=
    fun i hi => (hinv.out_range i hi).1
  constructor
  · intro s2 hs2
    exact (post_return_frozen sys s hret hw hout s2 hs2).1
  · intro hfull s2 hs2
    exact post_return_stuck sys s hret hw hout hfull s2 hs2

/-- Witness for the amended C7: applied at the concrete post-return state
`sA7`, whose single worker queue `[0, 1]` is at capacity — the system is
stuck, and the log never grows. -/
theorem execute_after_shutdown_witness :
    (∀ s2, Steps sysA sA7 s2 → s2.log = []) ∧
    (∀ s2, Steps sysA sA7 s2 → s2 = sA7) := by
  have hreach : Reach sysA [0, 1] sA7 := reach_sA6.tail step_sA67
  have h := execute_after_shutdown sysA [0, 1] sA7 (by decide) hreach rfl
  exact ⟨fun s2 hs2 => h.1 s2 hs2, fun s2 hs2 => h.2 (by decide) s2 hs2⟩

/-- Witness for C3 at the concrete trace A. -/
theorem shutdown_protocol_witness :
    sA6.wg = 0 ∧ sA6.workers 1 = .exited ∧ sA6.sigs 1 = 1 := by
  have h := shutdown_protocol sysA [0, 1] sA6 (by decide) reach_sA6 rfl
  exact ⟨h.1, (h.2 1 (by decide) (by decide)).1, (h.2 1 (by decide) (by decide)).2⟩

/-- Witness for C10 at the concrete trace A, in the termination-wait
state. -/
theorem stop_signal_handshake_witness :
    sA5.sigs 1 = 1 ∧
    (sA5.workers 1 = .stopping ∨ sA5.workers 1 = .exited) := by
  have h := (stop_signal_handshake sysA [0, 1] sA5 (by decide)
    reach_sA5).2 rfl 1 (by decide) (by decide)
  exact h

theorem precedes_of_sublist {l1 l2 : List Event} {e1 e2 : Event}
    (hsub : l1.Sublist l2) (hp : precedes l1 e1 e2) : precedes l2 e1 e2 := by
  obtain ⟨n, m, hnm, hn, hm⟩ := hp
  obtain ⟨hnlt, hne⟩ := List.getElem?_eq_some.mp hn
  obtain ⟨hmlt, hme⟩ := List.getElem?_eq_some.mp hm
  obtain ⟨f, hf⟩ := List.sublist_iff_exists_fin_orderEmbedding_get_eq.mp hsub
  refine ⟨(f ⟨n, hnlt⟩).val, (f ⟨m, hmlt⟩).val, ?_, ?_, ?_⟩
  · exact f.lt_iff_lt.mpr (by exact hnm)
  · rw [List.getElem?_eq_getElem (f ⟨n, hnlt⟩).isLt]
    have hg := hf ⟨n, hnlt⟩
    rw [List.get_eq_getElem, List.get_eq_getElem] at hg
    rw [← hg]
    exact congrArg some hne
  · rw [List.getElem?_eq_getElem (f ⟨m, hmlt⟩).isLt]
    have hg := hf ⟨m, hmlt⟩
    rw [List.get_eq_getElem, List.get_eq_getElem] at hg
    rw [← hg]
    exact congrArg some hme

theorem altRep_length (i : Nat) (ds : List Runner) :
    (altRep i ds).length = 2 * ds.length := by
  induction ds with
  | nil => rfl
  | cons d t ih =>
    show ([Event.beg i d, Event.fin i d] ++ altRep i t).length
        = 2 * (d :: t).length
    simp [ih]
    omega

theorem altRep_getElem_beg (i : Nat) (ds : List Runner) : ∀ (k : Nat)
    (x : Runner), ds[k]? = some x →
    (altRep i ds)[2 * k]? = some (Event.beg i x) := by
  induction ds with
  | nil =>
    intro k x hk
    simp at hk
  | cons d t ih =>
    intro k x hk
    cases k with
    | zero =>
      simp at hk
      subst hk
      rfl
    | succ k =>
      rw [List.getElem?_cons_succ] at hk
      have harith : 2 * (k + 1) = (2 * k) + 1 + 1 := by omega
      show (Event.beg i d :: Event.fin i d :: altRep i t)[2 * (k + 1)]?
          = some (Event.beg i x)
      rw [harith, List.getElem?_cons_succ, List.getElem?_cons_succ]
      exact ih k x hk

theorem altRep_getElem_fin (i : Nat) (ds : List Runner) : ∀ (k : Nat)
    (x : Runner), ds[k]? = some x →
    (altRep i ds)[2 * k + 1]? = some (Event.fin i x) := by
  induction ds with
  | nil =>
    intro k x hk
    simp at hk
  | cons d t ih =>
    intro k x hk
    cases k with
    | zero =>
      simp at hk
      subst hk
      show (Event.beg i d :: Event.fin i d :: altRep i t)[2 * 0 + 1]?
          = some (Event.fin i d)
      simp
    | succ k =>
      rw [List.getElem?_cons_succ] at hk
      have harith : 2 * (k + 1) + 1 = ((2 * k) + 1) + 1 + 1 := by omega
      show (Event.beg i d :: Event.fin i d :: altRep i t)[2 * (k + 1) + 1]?
          = some (Event.fin i x)
      rw [harith, List.getElem?_cons_succ, List.getElem?_cons_succ]
      exact ih k x hk

theorem beg_mem_altRep (i : Nat) (b : Runner) (ds : List Runner) :
    Event.beg i b ∈ altRep i ds ↔ b ∈ ds := by
  induction ds with
  | nil => simp [altRep]
  | cons d t ih =>
    show Event.beg i b ∈ Event.beg i d :: Event.fin i d :: altRep i t ↔ _
    simp only [List.mem_cons, ih]
    constructor
    · rintro (hc | hc | hc)
      · injection hc with h1 h2
        exact Or.inl h2
      · exact Event.noConfusion hc
      · exact Or.inr hc
    · rintro (rfl | hc)
      · exact Or.inl rfl
      · exact Or.inr (Or.inr hc)

theorem nodup_idx_left {l1 l2 : List Runner} {j : Nat} {x : Runner}
    (hnd : (l1 ++ l2).Nodup) (hj : (l1 ++ l2)[j]? = some x)
    (hx : x ∈ l1) : j < l1.length ∧ l1[j]? = some x := by
  by_cases hlt : j < l1.length
  · rw [List.getElem?_append, if_pos hlt] at hj
    exact ⟨hlt, hj⟩
  · exfalso
    rw [List.getElem?_append, if_neg hlt] at hj
    obtain ⟨hlt2, he⟩ := List.getElem?_eq_some.mp hj
    have hx2 : x ∈ l2 := he ▸ List.getElem_mem hlt2
    exact (List.disjoint_of_nodup_append hnd) hx hx2

/-- C4: per-worker FIFO order.  In any reachable state, for any worker
`i`, if runnables `a` and `b` were enqueued onto worker `i`'s queue in
that order (positions `ja < jb` of the per-worker enqueue history, with
pairwise distinct submissions) and `b`'s execution has begun, then `a`'s
execution-finished event precedes `b`'s execution-begun event in the
global log: `a` completed before `b` started. -/
theorem per_worker_fifo (sys : Sys) (subs0 : List Runner) (s : St)
    (hN : 1 ≤ sys.N) (h : Reach sys subs0 s) (hnd : subs0.Nodup)
    (i ja jb : Nat) (a b : Runner)
    (hja : (s.enq i)[ja]? = some a) (hjb : (s.enq i)[jb]? = some b)
    (hord : ja < jb) (hbeg : Event.beg i b ∈ s.log) :
    precedes s.log (.fin i a) (.beg i b) := by
  have hinv := reach_inv sys subs0 s hN h
  have hcsub : s.consumed.Sublist subs0 := by
    rw [← hinv.consumed_eq]
    exact List.sublist_append_left _ _
  have hen : (s.enq i).Nodup := ((hinv.enq_sub i).trans hcsub).nodup hnd
  have henq := hinv.enq_eq i
  have hwl := hinv.wlog_eq i
  have hsubl : (wlog i s.log).Sublist s.log := List.filter_sublist s.log
  have hbw : Event.beg i b ∈ wlog i s.log := by
    rw [wlog, List.mem_filter]
    refine ⟨hbeg, ?_⟩
    simp [evFor, Event.wid]
  rw [hwl] at hbw
  rcases List.mem_append.mp hbw with hb1 | hb2
  · have hbd : b ∈ s.dones i := (beg_mem_altRep i b _).mp hb1
    have hsplit : s.enq i = s.dones i ++ (execList i s ++ s.queues i) := by
      rw [henq, List.append_assoc]
    have hen2 : (s.dones i ++ (execList i s ++ s.queues i)).Nodup := by
      rw [← hsplit]
      exact hen
    have hjb2 : (s.dones i ++ (execList i s ++ s.queues i))[jb]? = some b := by
      rw [← hsplit]
      exact hjb
    have hjb' := nodup_idx_left hen2 hjb2 hbd
    have hja' : (s.dones i)[ja]? = some a := by
      have hlt : ja < (s.dones i).length := by omega
      have hja2 : (s.dones i ++ (execList i s ++ s.queues i))[ja]? = some a := by
        rw [← hsplit]
        exact hja
      rwa [List.getElem?_append, if_pos hlt] at hja2
    refine precedes_of_sublist hsubl ?_
    rw [hwl]
    have hbnd1 : 2 * ja + 1 < (altRep i (s.dones i)).length := by
      rw [altRep_length]
      omega
    have hbnd2 : 2 * jb < (altRep i (s.dones i)).length := by
      rw [altRep_length]
      omega
    refine ⟨2 * ja + 1, 2 * jb, by omega, ?_, ?_⟩
    · rw [List.getElem?_append, if_pos hbnd1]
      exact altRep_getElem_fin i _ ja a hja'
    · rw [List.getElem?_append, if_pos hbnd2]
      exact altRep_getElem_beg i _ jb b hjb'.2
  · have hex : s.workers i = .executing b := by
      cases hw : s.workers i with
      | executing r =>
        rw [begTail_executing i s r hw] at hb2
        have hbb : Event.beg i b = Event.beg i r := List.mem_singleton.mp hb2
        have hbr : b = r := by injection hbb
        rw [hbr]
      | waiting =>
        rw [begTail_waiting i s hw] at hb2
        simp at hb2
      | stopping =>
        rw [begTail_stopping i s hw] at hb2
        simp at hb2
      | exited =>
        rw [begTail_exited i s hw] at hb2
        simp at hb2
    have hsplit : s.enq i = (s.dones i ++ [b]) ++ s.queues i := by
      rw [henq, execList_executing i s b hex]
    have hen2 : ((s.dones i ++ [b]) ++ s.queues i).Nodup := by
      rw [← hsplit]
      exact hen
    have hjb2 : ((s.dones i ++ [b]) ++ s.queues i)[jb]? = some b := by
      rw [← hsplit]
      exact hjb
    have hl := nodup_idx_left hen2 hjb2
      (List.mem_append_right _ (List.mem_singleton_self b))
    have hnd2 : (s.dones i ++ [b]).Nodup :=
      (List.sublist_append_left _ _).nodup hen2
    have hjbe : jb = (s.dones i).length := by
      rcases Nat.lt_or_ge jb (s.dones i).length with hlt | hge
      · exfalso
        have hget : (s.dones i)[jb]? = some b := by
          have hg := hl.2
          rwa [List.getElem?_append, if_pos hlt] at hg
        obtain ⟨hlt2, he⟩ := List.getElem?_eq_some.mp hget
        have hbd : b ∈ s.dones i := he ▸ List.getElem_mem hlt2
        exact (List.disjoint_of_nodup_append hnd2) hbd
          (List.mem_singleton_self b)
      · have hlen := hl.1
        simp only [List.length_append, List.length_singleton] at hlen
        omega
    have hja' : (s.dones i)[ja]? = some a := by
      have hlt : ja < (s.dones i).length := by omega
      have hja2 : ((s.dones i ++ [b]) ++ s.queues i)[ja]? = some a := by
        rw [← hsplit]
        exact hja
      rw [List.getElem?_append, if_pos (by simp; omega)] at hja2
      rwa [List.getElem?_append, if_pos hlt] at hja2
    refine precedes_of_sublist hsubl ?_
    rw [hwl, begTail_executing i s b hex]
    have hbnd1 : 2 * ja + 1 < (altRep i (s.dones i)).length := by
      rw [altRep_length]
      omega
    have hbnd2 : ¬(2 * (s.dones i).length < (altRep i (s.dones i)).length) := by
      rw [altRep_length]
      omega
    refine ⟨2 * ja + 1, 2 * (s.dones i).length, by omega, ?_, ?_⟩
    · rw [List.getElem?_append, if_pos hbnd1]
      exact altRep_getElem_fin i _ ja a hja'
    · rw [List.getElem?_append, if_neg hbnd2, altRep_length]
      simp

/-- Witness for C4: a one-worker trace that executes runnable 0 to
completion and then begins runnable 1; the finish event of 0 precedes the
begin event of 1 in the log. -/
theorem per_worker_fifo_witness :
    precedes sB5.log (.fin 1 0) (.beg 1 1) := by
  have t1 : Step sysA sA1 sB2 :=
    Step.submit sA1 1 [] (Or.inl rfl) rfl (by decide)
  have t2 : Step sysA sB2 sB3 :=
    Step.dequeue sB2 1 0 [1] (by decide) (by decide) (by decide) (by decide)
  have t3 : Step sysA sB3 sB4 :=
    Step.finish sB3 1 0 (by decide)
  have t4 : Step sysA sB4 sB5 :=
    Step.dequeue sB4 1 1 [] (by decide) (by decide) (by decide) (by decide)
  have hreach : Reach sysA [0, 1] sB5 :=
    ((((Relation.ReflTransGen.single step_sA01).tail t1).tail t2).tail
        t3).tail t4
  exact per_worker_fifo sysA [0, 1] sB5 (by decide) hreach (by decide)
    1 0 1 0 1 (by decide) (by decide) (by decide) (by decide)

end Lib
